import Mathlib

/-!
Verification development for the document comparison and PII masking pipeline
of the ollama_pdf_comparison repository (src/pii_ocr_masking.py,
src/pii_sum_ollama.py, src/pii_report_sum.py).

Texts are modelled as lists of characters and line sequences as lists of such
lists.  Python's str.splitlines, the difflib sequence matcher and unified-diff
renderer invoked by DocumentProcessor.compare_texts (the Python 3.11 standard
library implementation), the report assembly of
DocumentProcessor.process_directory, the mask_pii wrapper, and the section
parser DiffReportProcessor.read_diff_file are embedded as pure Lean functions.
The presidio analyzer and anonymizer engines are external collaborators whose
code is not part of the repository; the span lists they produce are supplied
as explicit inputs, and the resolution and replacement steps are modelled from
the specification (sections 4.2 to 4.4) in the definitions marked
"Modelled from the spec" below.
-/

set_option maxHeartbeats 2000000

namespace PdfPii

/-- Line-break characters recognised by Python str.splitlines. -/
def isLineBreak (c : Char) : Bool :=
  c == '\n' || c == '\r' || c == '\x0b' || c == '\x0c' ||
  c == '\x1c' || c == '\x1d' || c == '\x1e' || c == '\x85' ||
  c == '\u2028' || c == '\u2029'

/-- Python str.splitlines as an accumulator-based splitter; acc holds the
current line reversed.  A carriage return immediately followed by a newline is
a single boundary, and a trailing boundary does not open a final empty line. -/
def splitLinesAux : List Char → List Char → List (List Char)
  | [], acc => if acc.isEmpty then [] else [acc.reverse]
  | '\r' :: '\n' :: rest, acc => acc.reverse :: splitLinesAux rest []
  | c :: rest, acc =>
    if isLineBreak c then acc.reverse :: splitLinesAux rest []
    else splitLinesAux rest (c :: acc)

/-- Python s.splitlines() for a text given as a character list. -/
def pySplitlines (s : List Char) : List (List Char) := splitLinesAux s []

/-- Number of lines of a text, as Python len(s.splitlines()). -/
def lineCount (s : List Char) : Nat := (pySplitlines s).length

/-- A text is break-free when it contains no line-break character. -/
def breakFree (s : List Char) : Bool := s.all (fun c => !(isLineBreak c))

/-- Python "\n".join on a list of lines. -/
def joinNL : List (List Char) → List Char
  | [] => []
  | [l] => l
  | l :: rest => l ++ '\n' :: joinNL rest

/-- Python s[i:j] slicing on lists. -/
def pySlice {α : Type} (s : List α) (i j : Nat) : List α := (s.take j).drop i

/-- Replace the half-open range [i, j) of a text by r. -/
def replaceRange (text : List Char) (i j : Nat) (r : List Char) : List Char :=
  text.take i ++ r ++ text.drop j

/-! ## Entity spans and the masking pipeline of DocumentProcessor.mask_pii -/

/-- An entity span as produced by the analyzer: entity type name, half-open
character range, confidence score, and whether it comes from a pattern
recognizer or from the statistical model (spec section 3, EntitySpan). -/
structure EntitySpan where
  entityType : String
  start : Nat
  stop : Nat
  score : ℚ
  fromPattern : Bool
deriving DecidableEq

/-- The entities requested from the analyzer in DocumentProcessor.mask_pii
(src/pii_ocr_masking.py lines 134-137). -/
def analyzedEntities : List String :=
  ["PERSON", "EMAIL_ADDRESS", "PHONE_NUMBER", "SSN",
   "CREDIT_CARD", "LOCATION", "ORGANIZATION", "POLICY_NUMBER"]

/-- The replace-operator table built in mask_pii (src lines 140-143): every
entity type occurring in the analyzer results is mapped to the literal value
"<" ++ type ++ ">"; a type with no entry falls back to the presidio anonymizer
default, which is the same literal. -/
def opsValue (results : List EntitySpan) (t : String) : List Char :=
  match results.find? (fun r => r.entityType == t) with
  | some r => '<' :: r.entityType.data ++ ['>']
  | none => '<' :: t.data ++ ['>']

/-- Modelled from the spec: the Anonymizer replacement step (section 4.4; the
presidio AnonymizerEngine called at src/pii_ocr_masking.py lines 144-146 is an
external engine whose code is not in the repository).  The resolved span list
is given in ascending start order and processed in descending order of start,
each span's range being replaced in place by its operator's value. -/
def anonymize (text : List Char) (results : List EntitySpan) : List Char :=
  results.foldr
    (fun s t => replaceRange t s.start s.stop (opsValue results s.entityType)) text

/-- Placeholder inserted by the operators of mask_pii for a span. -/
def placeholderOf (s : EntitySpan) : List Char := '<' :: s.entityType.data ++ ['>']

/-- Interleaved rendering of anonymization from a cursor position: kept
segment, placeholder, rest. -/
def interleaveMask (text : List Char) : Nat → List EntitySpan → List Char
  | pos, [] => text.drop pos
  | pos, s :: rest =>
    pySlice text pos s.start ++ placeholderOf s ++ interleaveMask text s.stop rest

/-- The claim-side rendering of anonymization: each resolved span's substring
replaced in place by angle brackets around the upper-cased entity type, the
rest of the text kept. -/
def interleaveSpec (text : List Char) : Nat → List EntitySpan → List Char
  | pos, [] => text.drop pos
  | pos, s :: rest =>
    pySlice text pos s.start ++ ('<' :: (s.entityType.data.map Char.toUpper) ++ ['>']) ++
      interleaveSpec text s.stop rest

/-- Well-formedness of a resolved span list: ascending, non-overlapping and
within the text bounds. -/
def spanChain : Nat → List EntitySpan → Nat → Bool
  | pos, [], len => decide (pos ≤ len)
  | pos, s :: rest, len =>
    decide (pos ≤ s.start) && decide (s.start ≤ s.stop) && spanChain s.stop rest len

/-- Modelled from the spec: threshold filtering, step 1 of Entity Merge and
Resolution (section 4.3): drop every span whose score is below the threshold.
mask_pii passes score threshold 0.6 = 3/5 (src line 138). -/
def thresholdFilter (spans : List EntitySpan) (threshold : ℚ) : List EntitySpan :=
  spans.filter (fun s => decide (threshold ≤ s.score))

/-- Insertion of a span into a list sorted by ascending start. -/
def insertByStart (s : EntitySpan) : List EntitySpan → List EntitySpan
  | [] => [s]
  | t :: rest =>
    if s.start ≤ t.start then s :: t :: rest else t :: insertByStart s rest

/-- Sort spans by ascending start. -/
def sortByStart : List EntitySpan → List EntitySpan
  | [] => []
  | s :: rest => insertByStart s (sortByStart rest)

/-- Sweep step grouping start-sorted spans into overlap clusters: a span whose
start lies before the running maximal stop joins the current cluster. -/
def sweepClusters : List EntitySpan → List EntitySpan → Nat → List (List EntitySpan)
  | [], cur, _ => [cur.reverse]
  | s :: rest, cur, hi =>
    if s.start < hi then sweepClusters rest (s :: cur) (max hi s.stop)
    else cur.reverse :: sweepClusters rest [s] s.stop

/-- Modelled from the spec: group the surviving spans by overlapping offset
ranges, step 2 of section 4.3.  The input must be sorted by ascending start. -/
def overlapClusters : List EntitySpan → List (List EntitySpan)
  | [] => []
  | s :: rest => sweepClusters rest [s] s.stop

/-- Modelled from the spec: the winner preference of section 4.3 step 3,
higher score first, then pattern-sourced over statistical, then earlier
start. -/
def betterSpan (s t : EntitySpan) : Bool :=
  decide (t.score < s.score) ||
  (decide (s.score = t.score) &&
    ((s.fromPattern && !t.fromPattern) ||
     ((s.fromPattern == t.fromPattern) && decide (s.start < t.start))))

/-- Keep exactly one span per overlap cluster, the preferred one. -/
def pickBest : List EntitySpan → Option EntitySpan
  | [] => none
  | s :: rest => some (rest.foldl (fun b t => if betterSpan t b then t else b) s)

/-- Modelled from the spec: Entity Merge and Resolution (section 4.3), the
resolution performed inside the analyzer call of mask_pii. -/
def resolveSpans (spans : List EntitySpan) (threshold : ℚ) : List EntitySpan :=
  (overlapClusters (sortByStart (thresholdFilter spans threshold))).filterMap pickBest

/-- Modelled from the spec: the replacement step together with its failure mode
(section 4.4): presidio raises on an invalid span list (a span out of the
text's bounds or ill-ordered overlaps); otherwise the rewrite is total. -/
def anonymizeChecked (text : List Char) (results : List EntitySpan) :
    Except String (List Char) :=
  if spanChain 0 results text.length then Except.ok (anonymize text results)
  else Except.error "invalid analyzer result"

/-- The score threshold 0.6 passed to the analyzer by mask_pii (src line 138),
as the reduced rational three fifths. -/
def scoreThreshold : ℚ := ⟨3, 5, by decide, by decide⟩

/-- The fallible analyze-plus-anonymize pipeline inside the try block of
DocumentProcessor.mask_pii (src lines 130-148): the analyzer call is external
and may raise, so its outcome is supplied as an Except value carrying the raw
span list; on success the spans are resolved at threshold 0.6 and the
anonymizer rewrite runs. -/
def maskPiiPipeline (text : List Char) (analyzed : Except String (List EntitySpan)) :
    Except String (List Char) :=
  analyzed.bind (fun raw => anonymizeChecked text (resolveSpans raw scoreThreshold))

/-- Embeds DocumentProcessor.mask_pii (src lines 128-151): any exception of the
pipeline is caught and the original text returned unchanged (lines 149-151). -/
def maskPii (text : List Char) (analyzed : Except String (List EntitySpan)) : List Char :=
  match maskPiiPipeline text analyzed with
  | Except.ok masked => masked
  | Except.error _ => text

/-! ## Report assembly of DocumentProcessor.process_directory -/

/-- The separator of eighty equals signs (src lines 211, 217, 220). -/
def sepLine : List Char := List.replicate 80 '='

/-- Comparison section header (src line 211). -/
def comparisonHeader (n1 n2 : List Char) : List Char :=
  "Comparison: ".data ++ n1 ++ " vs ".data ++ n2 ++ '\n' :: sepLine ++ ['\n']

/-- Diff body text (src lines 212-215). -/
def diffBody (diff : List (List Char)) : List Char :=
  if diff.isEmpty then "No Differences Found\n".data
  else "Differences Found:\n".data ++ joinNL diff ++ ['\n']

/-- A report section: header, body, newline, separator, blank line (src lines
217 and 220).  The body is the diff text in the unmasked report and the
mask_pii output in the masked report. -/
def sectionText (n1 n2 body : List Char) : List Char :=
  comparisonHeader n1 n2 ++ body ++ '\n' :: sepLine ++ ['\n', '\n']

/-- An unmasked report section (src line 217). -/
def unmaskedSection (n1 n2 : List Char) (diff : List (List Char)) : List Char :=
  sectionText n1 n2 (diffBody diff)

/-- A masked report section (src lines 219-220); the analyzer outcome of the
mask_pii call on the diff body is an explicit input. -/
def maskedSection (n1 n2 : List Char) (diff : List (List Char))
    (analyzed : Except String (List EntitySpan)) : List Char :=
  sectionText n1 n2 (maskPii (diffBody diff) analyzed)

/-- Embeds the document-collection loop of process_directory (src lines
193-198): a parsed (name, text) pair enters the documents map only when the
extracted text is truthy, that is, nonempty. -/
def collectDocuments (parsed : List (String × String)) : List (String × String) :=
  parsed.filter (fun nt => nt.2 != "")

/-! ## The email pattern of the custom recognizers (src lines 65-69) -/

/-- Python regex word character, ASCII range. -/
def isWordChar (c : Char) : Bool := c.isAlphanum || c == '_'

/-- Python regex whitespace class, ASCII range. -/
def isPySpace (c : Char) : Bool :=
  c == ' ' || c == '\t' || c == '\n' || c == '\r' || c == '\x0b' || c == '\x0c'

/-- Characters matched inside the bracket classes of the email pattern. -/
def isEmailChar (c : Char) : Bool := isWordChar c || c == '.' || c == '-'

/-- Separator class of the email pattern of src line 67: an at sign or any
regex whitespace character, newline included. -/
def isEmailSep (c : Char) : Bool := c == '@' || isPySpace c

/-- Whether a whole string matches the EMAIL_PATTERN regex of src line 67:
a word boundary, one or more email characters starting with a word character,
one separator character, one or more email characters, a dot, one or more word
characters, and a final word boundary. -/
def emailWholeMatch (s : List Char) : Bool :=
  (List.range s.length).any (fun i =>
    (List.range s.length).any (fun d =>
      decide (i < d) &&
      (let p := pySlice s 0 i
       let q := pySlice s (i + 1) d
       let w := pySlice s (d + 1) s.length
       !p.isEmpty && p.all isEmailChar &&
       (match p.head? with
        | some c => isWordChar c
        | none => false) &&
       (match s.get? i with
        | some c => isEmailSep c
        | none => false) &&
       !q.isEmpty && q.all isEmailChar &&
       (s.get? d == some '.') &&
       !w.isEmpty && w.all isWordChar)))

/-! ## The name pattern of the custom recognizers (src lines 75-79) -/

/-- The bracket class of the name pattern's capture group: ASCII letters,
regex whitespace and the dot. -/
def isNameClass (c : Char) : Bool := c.isAlpha || isPySpace c || c == '.'

/-- Number of regex whitespace characters from position p on. -/
def spacesFrom (t : List Char) (p : Nat) : Nat :=
  ((t.drop p).takeWhile isPySpace).length

/-- The lookahead of the name pattern: a newline at position q or the end of
the text. -/
def lookNL (t : List Char) (q : Nat) : Bool :=
  q == t.length || (t.drop q).head? == some '\n'

/-- The trailing greedy whitespace run of NAME_PATTERN after the capture
group: from its longest expansion it backtracks until the lookahead holds,
yielding the match end, or nothing if every expansion fails. -/
def trailEnd (t : List Char) (p : Nat) : Option Nat :=
  (List.range (spacesFrom t p + 1)).reverse.findSome? (fun j =>
    if lookNL t (p + j) then some (p + j) else none)

/-- The lazy capture group of NAME_PATTERN: it grows one class character at a
time from position q on, and after each character tries the trailing
whitespace run and lookahead; the first success is the match end, exactly the
preference order of the regex engine. -/
def nameScan (t : List Char) : Nat → Nat → Option Nat
  | 0, _ => none
  | fuel + 1, q =>
    match (t.drop q).head? with
    | none => none
    | some c =>
      if isNameClass c then
        match trailEnd t (q + 1) with
        | some e => some e
        | none => nameScan t fuel (q + 1)
      else none

/-- Match end of the NAME_PATTERN regex of src line 77,
Name: then \s then a lazy class group then \s then a newline-or-end
lookahead, at start position i: the literal, the greedy leading whitespace
run, then the group scan.  The search follows the engine's preferred path
first (maximal leading run, shortest group, longest trailing run), so a
success is the engine's match. -/
def nameMatchEnd (t : List Char) (i : Nat) : Option Nat :=
  if (t.drop i).take 5 = "Name:".data then
    nameScan t t.length (i + 5 + spacesFrom t (i + 5))
  else none

/-! ## The section parser DiffReportProcessor.read_diff_file -/

/-- Python line.strip() falsiness: a line is blank when every character is
whitespace. -/
def blankLine (l : List Char) : Bool := l.all isPySpace

/-- Python str.startswith on character lists. -/
def startsWith : List Char → List Char → Bool
  | _, [] => true
  | [], _ :: _ => false
  | c :: s, p :: ps => c == p && startsWith s ps

/-- A section extracted by DiffReportProcessor.read_diff_file. -/
structure DiffSection where
  comparison : List Char
  headerTail : List (List Char)
  diff : List Char
deriving DecidableEq

/-- The last two header lines, Python header[-2:]. -/
def lastTwo (l : List (List Char)) : List (List Char) := (l.reverse.take 2).reverse

/-- Embeds the line loop of DiffReportProcessor.read_diff_file
(src/pii_sum_ollama.py lines 59-77, textually identical in
src/pii_report_sum.py lines 54-72).  The state is the optional open section
with its captured header tail, the collected diff lines, and the accumulated
header lines; the final section is emitted only when it collected at least one
diff line (lines 75-77). -/
def readDiffLoop :
    List (List Char) → Option (List Char × List (List Char)) → List (List Char) →
      List (List Char) → List DiffSection
  | [], cur, diffLines, _ =>
    (match cur with
     | some (c, hdr) =>
       if diffLines.isEmpty then [] else [⟨c, hdr, joinNL diffLines⟩]
     | none => [])
  | line :: rest, cur, diffLines, header =>
    if startsWith line "Comparison:".data then
      (match cur with
       | some (c, hdr) => [⟨c, hdr, joinNL diffLines⟩]
       | none => []) ++
      readDiffLoop rest (some (line, lastTwo header)) [] header
    else if startsWith line "Document Comparison Report".data ||
        startsWith line "Generated:".data then
      readDiffLoop rest cur diffLines (header ++ [line])
    else if cur.isSome && !(blankLine line) then
      readDiffLoop rest cur (diffLines ++ [line]) header
    else
      readDiffLoop rest cur diffLines header

/-- Embeds DiffReportProcessor.read_diff_file as a pure function of the file
content (src/pii_sum_ollama.py lines 44-80). -/
def readDiffFile (content : List Char) : List DiffSection :=
  readDiffLoop (pySplitlines content) none [] []

/-- A line is eligible for a section's diff field: neither blank nor one of
the two header markers. -/
def eligibleDiffLine (l : List Char) : Bool :=
  !(blankLine l) && !(startsWith l "Document Comparison Report".data) &&
  !(startsWith l "Generated:".data)

/-- Reference splitter following the amended claim C10: one section per line
beginning with "Comparison:", its diff joining the eligible lines before the
next such line; the final section is kept only when it has at least one
eligible line. -/
def sectionsSpec :
    List (List Char) → Option (List Char × List (List Char)) → List (List Char × List Char)
  | [], some (c, ds) => if ds.isEmpty then [] else [(c, joinNL ds)]
  | [], none => []
  | line :: rest, cur =>
    if startsWith line "Comparison:".data then
      (match cur with
       | some (c, ds) => [(c, joinNL ds)]
       | none => []) ++ sectionsSpec rest (some (line, []))
    else
      sectionsSpec rest
        (cur.map (fun p => (p.1, p.2 ++ (if eligibleDiffLine line then [line] else []))))

/-! ## difflib.SequenceMatcher and unified_diff (Python 3.11 standard library),
as invoked by DocumentProcessor.compare_texts -/

/-- A line of a document. -/
abbrev Line := List Char

/-- Occurrence positions of line x in b (difflib __chain_b), ascending.  With
autojunk (the default; compare_texts passes no junk function), elements
occurring more than len(b) / 100 + 1 times in a b of at least 200 lines are
popular and removed from the table. -/
def b2j (b : List Line) (x : Line) : List Nat :=
  if decide (200 ≤ b.length) &&
      decide (b.length / 100 + 1 < (b.filter (fun y => y == x)).length) then []
  else (List.range b.length).filter (fun j => b.get? j == some x)

/-- A matching block candidate: the best block found so far. -/
structure MatchBlock where
  besti : Nat
  bestj : Nat
  size : Nat
deriving DecidableEq

/-- Inner loop body of find_longest_match at position j of row i: the chain
length through (i, j) extends the previous row's entry at j - 1, the new table
records it, and the best block is updated on a strictly longer chain. -/
def flmStep (prev : Nat → Nat) (i : Nat) (st : (Nat → Nat) × MatchBlock) (j : Nat) :
    (Nat → Nat) × MatchBlock :=
  let k := (if j = 0 then 0 else prev (j - 1)) + 1
  ((fun x => if x = j then k else st.1 x),
   if st.2.size < k then ⟨i + 1 - k, j + 1 - k, k⟩ else st.2)

/-- One row of find_longest_match: scan the occurrences of a[i] lying in
[blo, bhi), starting from an empty new table. -/
def flmRow (a b : List Line) (blo bhi : Nat) (st : (Nat → Nat) × MatchBlock) (i : Nat) :
    (Nat → Nat) × MatchBlock :=
  let js :=
    (match a.get? i with
     | some x => ((b2j b x).filter (fun j => decide (blo ≤ j))).takeWhile
         (fun j => decide (j < bhi))
     | none => [])
  js.foldl (flmStep st.1 i) ((fun _ => 0), st.2)

/-- The dynamic-programming scan of find_longest_match over rows alo..ahi-1. -/
def flmScan (a b : List Line) (alo ahi blo bhi : Nat) : MatchBlock :=
  ((List.range' alo (ahi - alo)).foldl (flmRow a b blo bhi)
    ((fun _ => 0), ⟨alo, blo, 0⟩)).2

/-- Element equality through optional indexing. -/
def matchAt (a b : List Line) (i j : Nat) : Bool :=
  match a.get? i, b.get? j with
  | some x, some y => x == y
  | _, _ => false

/-- Left extension loop of find_longest_match over equal elements.  The junk
extension loops of the original are omitted: with no junk function the junk
set is empty and they never run. -/
def extendLeft (a b : List Line) (alo blo : Nat) : Nat → Nat → Nat → MatchBlock
  | 0, bestj, size => ⟨0, bestj, size⟩
  | bi + 1, bestj, size =>
    if alo ≤ bi ∧ blo < bestj ∧ matchAt a b bi (bestj - 1) = true then
      extendLeft a b alo blo bi (bestj - 1) (size + 1)
    else ⟨bi + 1, bestj, size⟩

/-- Right extension loop; the fuel is exactly ahi - (besti + size), so that
running out of fuel coincides with reaching the end of the a-range. -/
def extendRightFuel (a b : List Line) (bhi besti bestj : Nat) : Nat → Nat → Nat
  | size, 0 => size
  | size, fuel + 1 =>
    if bestj + size < bhi ∧ matchAt a b (besti + size) (bestj + size) = true then
      extendRightFuel a b bhi besti bestj (size + 1) fuel
    else size

/-- find_longest_match (difflib, junk-free): the dynamic-programming scan
followed by extension over equal elements on both ends. -/
def findLongestMatch (a b : List Line) (alo ahi blo bhi : Nat) : MatchBlock :=
  let m0 := flmScan a b alo ahi blo bhi
  let m1 := extendLeft a b alo blo m0.besti m0.bestj m0.size
  ⟨m1.besti, m1.bestj,
   extendRightFuel a b bhi m1.besti m1.bestj m1.size (ahi - (m1.besti + m1.size))⟩

/-- The recursive block collection of get_matching_blocks, in order (equal to
the sorted queue order of the Python implementation).  The fuel bounds the
recursion depth; (ahi - alo) + (bhi - blo) + 1 always suffices because each
recursive call strictly shrinks the combined range. -/
def matchingBlocksFuel (a b : List Line) :
    Nat → Nat → Nat → Nat → Nat → List (Nat × Nat × Nat)
  | 0, _, _, _, _ => []
  | fuel + 1, alo, ahi, blo, bhi =>
    let m := findLongestMatch a b alo ahi blo bhi
    if m.size = 0 then []
    else
      (if alo < m.besti ∧ blo < m.bestj then
        matchingBlocksFuel a b fuel alo m.besti blo m.bestj
      else []) ++
      (m.besti, m.bestj, m.size) ::
      (if m.besti + m.size < ahi ∧ m.bestj + m.size < bhi then
        matchingBlocksFuel a b fuel (m.besti + m.size) ahi (m.bestj + m.size) bhi
      else [])

/-- Collapse adjacent blocks, the second phase of get_matching_blocks. -/
def collapseBlocks : Nat → Nat → Nat → List (Nat × Nat × Nat) → List (Nat × Nat × Nat)
  | i1, j1, k1, [] => if k1 = 0 then [] else [(i1, j1, k1)]
  | i1, j1, k1, (i2, j2, k2) :: rest =>
    if i1 + k1 = i2 ∧ j1 + k1 = j2 then collapseBlocks i1 j1 (k1 + k2) rest
    else (if k1 = 0 then [] else [(i1, j1, k1)]) ++ collapseBlocks i2 j2 k2 rest

/-- get_matching_blocks: recursive collection, adjacency collapse, terminating
sentinel. -/
def getMatchingBlocks (a b : List Line) : List (Nat × Nat × Nat) :=
  collapseBlocks 0 0 0
      (matchingBlocksFuel a b (a.length + b.length + 1) 0 a.length 0 b.length) ++
    [(a.length, b.length, 0)]

/-- Opcode tags of difflib.get_opcodes. -/
inductive OpTag where
  | replace
  | delete
  | insert
  | equal
deriving DecidableEq

/-- An opcode: a tag with its half-open ranges into both line sequences. -/
structure Opcode where
  tag : OpTag
  i1 : Nat
  i2 : Nat
  j1 : Nat
  j2 : Nat
deriving DecidableEq

/-- The opcode-emitting loop of get_opcodes: a gap opcode before each block,
then an equal opcode for the block itself when it is not the sentinel. -/
def opcodesLoop : Nat → Nat → List (Nat × Nat × Nat) → List Opcode
  | _, _, [] => []
  | i, j, (ai, bj, size) :: rest =>
    (if i < ai ∧ j < bj then [⟨OpTag.replace, i, ai, j, bj⟩]
     else if i < ai then [⟨OpTag.delete, i, ai, j, bj⟩]
     else if j < bj then [⟨OpTag.insert, i, ai, j, bj⟩]
     else []) ++
    (if size = 0 then [] else [⟨OpTag.equal, ai, ai + size, bj, bj + size⟩]) ++
    opcodesLoop (ai + size) (bj + size) rest

/-- difflib get_opcodes. -/
def getOpcodes (a b : List Line) : List Opcode := opcodesLoop 0 0 (getMatchingBlocks a b)

/-- Clip a leading equal opcode to the last n context lines
(get_grouped_opcodes). -/
def clipHead (n : Nat) : List Opcode → List Opcode
  | [] => []
  | c :: rest =>
    if c.tag = OpTag.equal then
      ⟨OpTag.equal, max c.i1 (c.i2 - n), c.i2, max c.j1 (c.j2 - n), c.j2⟩ :: rest
    else c :: rest

/-- Clip a trailing equal opcode to the first n context lines
(get_grouped_opcodes). -/
def clipLast (n : Nat) (codes : List Opcode) : List Opcode :=
  match codes.getLast? with
  | none => []
  | some c =>
    if c.tag = OpTag.equal then
      codes.dropLast ++ [⟨OpTag.equal, c.i1, min c.i2 (c.i1 + n), c.j1, min c.j2 (c.j1 + n)⟩]
    else codes

/-- The grouping loop of get_grouped_opcodes: a large equal opcode closes the
current group with n context lines and opens the next one; a final group that
is empty or a single equal opcode is discarded. -/
def groupLoop (n : Nat) : List Opcode → List Opcode → List (List Opcode)
  | group, [] =>
    if group.isEmpty || (group.length == 1 &&
        (group.head?.map Opcode.tag) == some OpTag.equal) then []
    else [group]
  | group, c :: rest =>
    if c.tag = OpTag.equal ∧ n + n < c.i2 - c.i1 then
      (group ++ [⟨OpTag.equal, c.i1, min c.i2 (c.i1 + n), c.j1, min c.j2 (c.j1 + n)⟩]) ::
      groupLoop n [⟨OpTag.equal, max c.i1 (c.i2 - n), c.i2, max c.j1 (c.j2 - n), c.j2⟩] rest
    else groupLoop n (group ++ [c]) rest

/-- difflib get_grouped_opcodes with n context lines. -/
def getGroupedOpcodes (a b : List Line) (n : Nat) : List (List Opcode) :=
  let codes := getOpcodes a b
  let codes1 := if codes.isEmpty then [⟨OpTag.equal, 0, 1, 0, 1⟩] else codes
  groupLoop n [] (clipLast n (clipHead n codes1))

/-- Decimal rendering of a natural number, Python str(n). -/
def natStr (n : Nat) : List Char := Nat.toDigits 10 n

/-- difflib _format_range_unified. -/
def formatRangeUnified (start stop : Nat) : List Char :=
  if stop - start = 1 then natStr (start + 1)
  else natStr (if stop - start = 0 then start else start + 1) ++ ',' :: natStr (stop - start)

/-- Rendering of a single opcode inside a unified diff group. -/
def renderOpcode (a b : List Line) (c : Opcode) : List Line :=
  match c.tag with
  | OpTag.equal => (pySlice a c.i1 c.i2).map (fun l => ' ' :: l)
  | OpTag.delete => (pySlice a c.i1 c.i2).map (fun l => '-' :: l)
  | OpTag.insert => (pySlice b c.j1 c.j2).map (fun l => '+' :: l)
  | OpTag.replace =>
      (pySlice a c.i1 c.i2).map (fun l => '-' :: l) ++
      (pySlice b c.j1 c.j2).map (fun l => '+' :: l)

/-- Rendering of one group: the at-at range header then the opcode lines. -/
def renderGroup (a b : List Line) (g : List Opcode) : List Line :=
  let i1 := (g.head?.map Opcode.i1).getD 0
  let i2 := (g.getLast?.map Opcode.i2).getD 0
  let j1 := (g.head?.map Opcode.j1).getD 0
  let j2 := (g.getLast?.map Opcode.j2).getD 0
  ("@@ -".data ++ formatRangeUnified i1 i2 ++ " +".data ++ formatRangeUnified j1 j2 ++
    " @@".data) ::
  (g.map (renderOpcode a b)).flatten

/-- difflib unified_diff with empty lineterm: the two file header lines are
produced once if and only if at least one group exists. -/
def unifiedDiff (a b : List Line) (fromfile tofile : Line) (n : Nat) : List Line :=
  let groups := getGroupedOpcodes a b n
  if groups.isEmpty then []
  else
    ("--- ".data ++ fromfile) :: ("+++ ".data ++ tofile) ::
      (groups.map (renderGroup a b)).flatten

/-- Embeds DocumentProcessor.compare_texts (src lines 164-173): split both
texts into lines and return the unified diff with three context lines. -/
def compareTexts (text1 text2 name1 name2 : List Char) : List Line :=
  unifiedDiff (pySplitlines text1) (pySplitlines text2) name1 name2 3

/-- Loose chain predicate on matching blocks: the cursor never moves backwards
and ends within the given bounds. -/
def ChainLe : Nat → Nat → List (Nat × Nat × Nat) → Nat → Nat → Prop
  | i, j, [], ahi, bhi => i ≤ ahi ∧ j ≤ bhi
  | i, j, (ai, bj, k) :: rest, ahi, bhi => i ≤ ai ∧ j ≤ bj ∧ ChainLe (ai + k) (bj + k) rest ahi bhi

/-- Exact chain predicate: as ChainLe, but the cursor ends exactly at the
bounds; this is the shape of get_matching_blocks output including the
sentinel. -/
def ChainExact : Nat → Nat → List (Nat × Nat × Nat) → Nat → Nat → Prop
  | i, j, [], la, lb => i = la ∧ j = lb
  | i, j, (ai, bj, k) :: rest, la, lb => i ≤ ai ∧ j ≤ bj ∧ ChainExact (ai + k) (bj + k) rest la lb

/-- The bounds contract of find_longest_match: the returned block lies inside
the queried ranges. -/
def InBounds (alo ahi blo bhi : Nat) (m : MatchBlock) : Prop :=
  alo ≤ m.besti ∧ blo ≤ m.bestj ∧ m.besti + m.size ≤ ahi ∧ m.bestj + m.size ≤ bhi

/-! ## Lemmas on str.splitlines -/

theorem splitLinesAux_crlf (r acc : List Char) :
    splitLinesAux ('\r' :: '\n' :: r) acc = acc.reverse :: splitLinesAux r [] := rfl

theorem splitLinesAux_cr (r acc : List Char) (h : r.head? ≠ some '\n') :
    splitLinesAux ('\r' :: r) acc = acc.reverse :: splitLinesAux r [] := by
  rw [splitLinesAux.eq_3]
  · rw [if_pos (by decide)]
  · intro r2 _ hr
    subst hr
    simp at h

theorem splitLinesAux_break (c : Char) (r acc : List Char)
    (hc : isLineBreak c = true) (hcr : c ≠ '\r') :
    splitLinesAux (c :: r) acc = acc.reverse :: splitLinesAux r [] := by
  rw [splitLinesAux.eq_3]
  · rw [if_pos hc]
  · intro r2 he _
    exact hcr he

theorem splitLinesAux_char (c : Char) (r acc : List Char) (h : isLineBreak c = false) :
    splitLinesAux (c :: r) acc = splitLinesAux r (c :: acc) := by
  have hcr : c ≠ '\r' := by
    intro e
    subst e
    simp [isLineBreak] at h
  rw [splitLinesAux.eq_3]
  · rw [if_neg (by simp [h])]
  · intro r2 he _
    exact hcr he

/-- Single-step case analysis for splitLinesAux on a nonempty text. -/
theorem splitLinesAux_cons (c : Char) (r acc : List Char) :
    splitLinesAux (c :: r) acc =
      if c = '\r' ∧ r.head? = some '\n' then acc.reverse :: splitLinesAux r.tail []
      else if isLineBreak c then acc.reverse :: splitLinesAux r []
      else splitLinesAux r (c :: acc) := by
  by_cases h1 : c = '\r' ∧ r.head? = some '\n'
  · obtain ⟨hc, hr⟩ := h1
    subst hc
    cases r with
    | nil => simp at hr
    | cons d r2 =>
      simp only [List.head?_cons, Option.some_inj] at hr
      subst hr
      rw [if_pos ⟨rfl, rfl⟩]
      exact splitLinesAux_crlf r2 acc
  · rw [if_neg h1]
    by_cases hb : isLineBreak c = true
    · rw [if_pos hb]
      by_cases hc : c = '\r'
      · subst hc
        apply splitLinesAux_cr
        intro h
        exact h1 ⟨rfl, h⟩
      · exact splitLinesAux_break c r acc hb hc
    · rw [if_neg hb]
      exact splitLinesAux_char c r acc (by simpa using hb)

/-- Processing a break-free chunk only accumulates its characters. -/
theorem splitLinesAux_breakFree_append (xs : List Char) (h : breakFree xs = true) :
    ∀ (ys acc : List Char),
      splitLinesAux (xs ++ ys) acc = splitLinesAux ys (xs.reverse ++ acc) := by
  induction xs with
  | nil => intro ys acc; simp
  | cons c xs ih =>
    intro ys acc
    simp only [breakFree, List.all_cons, Bool.and_eq_true, Bool.not_eq_true'] at h
    have hx : breakFree xs = true := by
      simp [breakFree, h.2]
    rw [List.cons_append, splitLinesAux_char c _ _ h.1, ih hx]
    simp

/-- The number of lines produced after a nonempty pending accumulator does not
depend on the accumulator's contents. -/
theorem splitLinesAux_length_acc :
    ∀ (s acc1 acc2 : List Char), acc1 ≠ [] → acc2 ≠ [] →
      (splitLinesAux s acc1).length = (splitLinesAux s acc2).length := by
  have main : ∀ (n : Nat) (s acc1 acc2 : List Char), s.length ≤ n → acc1 ≠ [] →
      acc2 ≠ [] → (splitLinesAux s acc1).length = (splitLinesAux s acc2).length := by
    intro n
    induction n with
    | zero =>
      intro s acc1 acc2 hs h1 h2
      have hsnil : s = [] := List.length_eq_zero.mp (Nat.le_zero.mp hs)
      subst hsnil
      simp [splitLinesAux, h1, h2]
    | succ n ih =>
      intro s acc1 acc2 hs h1 h2
      cases s with
      | nil => simp [splitLinesAux, h1, h2]
      | cons c r =>
        rw [splitLinesAux_cons, splitLinesAux_cons]
        by_cases hcr : c = '\r' ∧ r.head? = some '\n'
        · rw [if_pos hcr, if_pos hcr]
          simp
        · rw [if_neg hcr, if_neg hcr]
          by_cases hb : isLineBreak c = true
          · rw [if_pos hb, if_pos hb]
            simp
          · rw [if_neg hb, if_neg hb]
            have hr : r.length ≤ n := by
              simp only [List.length_cons] at hs
              omega
            exact ih r (c :: acc1) (c :: acc2) hr (by simp) (by simp)
  intro s acc1 acc2 h1 h2
  exact main s.length s acc1 acc2 (le_refl _) h1 h2

/-- Splitting distributes over an append after a text that ends with a
newline. -/
theorem splitLinesAux_append_endsNL :
    ∀ (s : List Char), s.getLast? = some '\n' →
      ∀ (t acc : List Char),
        splitLinesAux (s ++ t) acc = splitLinesAux s acc ++ splitLinesAux t [] := by
  have main : ∀ (n : Nat) (s : List Char), s.length ≤ n → s.getLast? = some '\n' →
      ∀ (t acc : List Char),
        splitLinesAux (s ++ t) acc = splitLinesAux s acc ++ splitLinesAux t [] := by
    intro n
    induction n with
    | zero =>
      intro s hs hlast t acc
      have hsnil : s = [] := List.length_eq_zero.mp (Nat.le_zero.mp hs)
      subst hsnil
      simp at hlast
    | succ n ih =>
      intro s hs hlast t acc
      cases s with
      | nil => simp at hlast
      | cons c r =>
        cases r with
        | nil =>
          simp only [List.getLast?_singleton, Option.some_inj] at hlast
          subst hlast
          simp only [List.cons_append, List.nil_append]
          rw [splitLinesAux_break '\n' t acc (by decide) (by decide),
            splitLinesAux_break '\n' [] acc (by decide) (by decide)]
          simp [splitLinesAux]
        | cons d r2 =>
          have hlast2 : (d :: r2).getLast? = some '\n' := by
            rw [List.getLast?_cons_cons] at hlast
            exact hlast
          have hlen : (d :: r2).length ≤ n := by
            simp only [List.length_cons] at hs ⊢
            omega
          rw [List.cons_append, splitLinesAux_cons c ((d :: r2) ++ t) acc,
            splitLinesAux_cons c (d :: r2) acc]
          by_cases hcr : c = '\r' ∧ d = '\n'
          · obtain ⟨hc, hd⟩ := hcr
            subst hc
            subst hd
            have h1 : '\r' = '\r' ∧ (('\n' :: r2) ++ t).head? = some '\n' := by simp
            have h2 : '\r' = '\r' ∧ ('\n' :: r2).head? = some '\n' := by simp
            rw [if_pos h1, if_pos h2]
            simp only [List.cons_append, List.tail_cons]
            cases r2 with
            | nil =>
              simp [splitLinesAux]
            | cons e r3 =>
              have hlast3 : (e :: r3).getLast? = some '\n' := by
                rw [List.getLast?_cons_cons] at hlast2
                exact hlast2
              have hlen3 : (e :: r3).length ≤ n := by
                simp only [List.length_cons] at hlen ⊢
                omega
              rw [ih (e :: r3) hlen3 hlast3 t []]
          · have h1 : ¬(c = '\r' ∧ ((d :: r2) ++ t).head? = some '\n') := by
              intro hx
              apply hcr
              refine ⟨hx.1, ?_⟩
              have := hx.2
              simp only [List.cons_append, List.head?_cons, Option.some_inj] at this
              exact this
            have h2 : ¬(c = '\r' ∧ (d :: r2).head? = some '\n') := by
              intro hx
              apply hcr
              refine ⟨hx.1, ?_⟩
              have := hx.2
              simp only [List.head?_cons, Option.some_inj] at this
              exact this
            rw [if_neg h1, if_neg h2]
            by_cases hb : isLineBreak c = true
            · rw [if_pos hb, if_pos hb]
              rw [ih (d :: r2) hlen hlast2 t []]
              simp
            · rw [if_neg hb, if_neg hb]
              exact ih (d :: r2) hlen hlast2 t (c :: acc)
  intro s hlast t acc
  exact main s.length s (le_refl _) hlast t acc

/-- A break-free line followed by a newline is split off as one line. -/
theorem pySplitlines_line_cons (xs ys : List Char) (h : breakFree xs = true) :
    pySplitlines (xs ++ '\n' :: ys) = xs :: pySplitlines ys := by
  unfold pySplitlines
  rw [splitLinesAux_breakFree_append xs h ('\n' :: ys) [],
    splitLinesAux_break '\n' ys _ (by decide) (by decide)]
  simp

/-! ## Claim C6: empty extracted text and the comparison batch -/

/-- Claim C6 fails on the code: a document whose extracted text is the empty
string is dropped by the collection loop of process_directory, because the
guard treats the empty string as falsy. -/
theorem c6_empty_document_excluded :
    ("b.png", "") ∈ [("a.png", "Name: A"), ("b.png", "")] ∧
    ("b.png", "") ∉ collectDocuments [("a.png", "Name: A"), ("b.png", "")] := by
  decide

/-- Claim C6 as amended: a successfully parsed document enters the pairwise
comparison batch if and only if its extracted text is nonempty; a document
with empty extracted text is conflated with an extraction failure and
excluded. -/
theorem c6_amended (parsed : List (String × String)) (nt : String × String) :
    nt ∈ collectDocuments parsed ↔ nt ∈ parsed ∧ nt.2 ≠ "" := by
  simp [collectDocuments]

/-! ## Claim C1: mask_pii fails open -/

/-- The reduced threshold constant equals the fraction three fifths. -/
theorem scoreThreshold_eq : scoreThreshold = 3 / 5 := by
  norm_num [scoreThreshold, Rat.mk'_eq_divInt, Rat.divInt_eq_div]

/-- On any pipeline error the except handler returns the input text. -/
theorem maskPii_of_error (text : List Char) (analyzed : Except String (List EntitySpan))
    (e : String) (h : maskPiiPipeline text analyzed = Except.error e) :
    maskPii text analyzed = text := by
  unfold maskPii
  rw [h]

/-- Claim C1 (confirmed): if entity resolution or replacement raises during
masking, mask_pii fails open: the exception is caught rather than propagated
to the caller (it is surfaced only as a logged, recoverable condition) and the
original text is returned completely unmodified, never a partially rewritten
string. -/
theorem c1_mask_pii_fails_open (text : List Char)
    (analyzed : Except String (List EntitySpan)) (e : String)
    (h : maskPiiPipeline text analyzed = Except.error e) :
    maskPii text analyzed = text :=
  maskPii_of_error text analyzed e h

/-- Witness for C1: a concrete failing analyzer call returns the input text
unchanged. -/
theorem c1_witness :
    maskPii "SSN: 123-45-6789\n".data (Except.error "engine failure") =
      "SSN: 123-45-6789\n".data :=
  c1_mask_pii_fails_open _ _ "engine failure" rfl

/-! ## Claim C2: the per-pair masking fallback and its (missing) flag -/

/-- Claim C2 fails on the code: when masking of a pair's diff fails, the
masked report section is byte-for-byte identical to the unmasked section, so
the fallback carries no visible flag whatsoever and is indistinguishable from
genuinely masked output. -/
theorem c2_counterexample :
    maskedSection "a.png".data "b.png".data ["-SSN: 123-45-6789".data]
        (Except.error "anonymizer failure") =
      unmaskedSection "a.png".data "b.png".data ["-SSN: 123-45-6789".data] := rfl

/-- Claim C2 as amended: on a masking failure the masked report section does
fall back to the unmasked diff body, with the error only logged; the fallback
is not flagged in the report output, the masked section being exactly the
unmasked one. -/
theorem c2_amended (n1 n2 : List Char) (diff : List (List Char))
    (analyzed : Except String (List EntitySpan)) (e : String)
    (h : maskPiiPipeline (diffBody diff) analyzed = Except.error e) :
    maskedSection n1 n2 diff analyzed = unmaskedSection n1 n2 diff := by
  unfold maskedSection unmaskedSection
  rw [maskPii_of_error _ _ e h]

/-- Witness for C2 as amended, at a concrete failing pair. -/
theorem c2_witness :
    maskedSection "x.png".data "y.png".data ["-Phone: 555-123-4567".data]
        (Except.error "replace operator failure") =
      unmaskedSection "x.png".data "y.png".data ["-Phone: 555-123-4567".data] :=
  c2_amended _ _ _ _ "replace operator failure" rfl

/-! ## Claim C9: the report section framing -/

/-- A leading newline opens an empty line. -/
theorem pySplitlines_break_cons (ys : List Char) :
    pySplitlines ('\n' :: ys) = [] :: pySplitlines ys := by
  unfold pySplitlines
  rw [splitLinesAux_break '\n' ys [] (by decide) (by decide)]
  rfl

/-- The diff body of a report section always ends with a newline. -/
theorem diffBody_endsNL (diff : List (List Char)) :
    (diffBody diff).getLast? = some '\n' := by
  unfold diffBody
  by_cases h : diff.isEmpty
  · rw [if_pos h]
    decide
  · rw [if_neg h]
    rw [show "Differences Found:\n".data ++ joinNL diff ++ ['\n'] =
      ("Differences Found:\n".data ++ joinNL diff) ++ ['\n'] by simp,
      List.getLast?_concat]

/-- Claim C9, amended: every comparison section whose body ends in a newline
renders as the comparison line, a separator line of eighty equals signs, the
body lines, a blank line, another eighty-equals separator line, and the
trailing blank line that separates sections.  The unmasked body diffBody diff
always ends in a newline (third conjunct), and the body "No Differences
Found" appears literally for an empty diff (fourth conjunct), so every
unmasked section complies.  A masked body complies only when masking
preserves the final newline; the name pattern's greedy trailing whitespace
run can put that newline inside a resolved span (see the counterexample),
and the blank line before the closing separator is then missing. -/
theorem c9_amended (n1 n2 body : List Char)
    (h1 : breakFree n1 = true) (h2 : breakFree n2 = true)
    (hb : body.getLast? = some '\n') :
    pySplitlines (sectionText n1 n2 body) =
      ("Comparison: ".data ++ n1 ++ " vs ".data ++ n2) :: sepLine ::
        (pySplitlines body ++ [[], sepLine, []]) ∧
    sepLine = List.replicate 80 '=' ∧
    (∀ diff : List (List Char), (diffBody diff).getLast? = some '\n') ∧
    diffBody [] = "No Differences Found\n".data := by
  refine ⟨?_, rfl, diffBody_endsNL, rfl⟩
  have hA : breakFree ("Comparison: ".data ++ n1 ++ " vs ".data ++ n2) = true := by
    simp only [breakFree, List.all_append, Bool.and_eq_true] at h1 h2 ⊢
    exact ⟨⟨⟨by decide, h1⟩, by decide⟩, h2⟩
  have hsep : breakFree sepLine = true := by decide
  have e1 : sectionText n1 n2 body =
      ("Comparison: ".data ++ n1 ++ " vs ".data ++ n2) ++ '\n' ::
        (sepLine ++ '\n' :: (body ++ '\n' :: (sepLine ++ ['\n', '\n']))) := by
    unfold sectionText comparisonHeader
    simp [List.append_assoc]
  rw [e1, pySplitlines_line_cons _ _ hA, pySplitlines_line_cons _ _ hsep]
  have e2 : pySplitlines (body ++ '\n' :: (sepLine ++ ['\n', '\n'])) =
      pySplitlines body ++ ([] :: sepLine :: [[]]) := by
    unfold pySplitlines
    rw [splitLinesAux_append_endsNL body hb ('\n' :: (sepLine ++ ['\n', '\n'])) []]
    rw [splitLinesAux_break '\n' _ [] (by decide) (by decide)]
    have e3 : splitLinesAux (sepLine ++ '\n' :: ['\n']) [] = sepLine :: pySplitlines ['\n'] :=
      pySplitlines_line_cons sepLine ['\n'] hsep
    rw [show sepLine ++ ['\n', '\n'] = sepLine ++ '\n' :: ['\n'] from rfl, e3]
    rfl
  rw [e2]

/-- Witness for C9 at a concrete pair with no differences. -/
theorem c9_witness :
    pySplitlines (sectionText "a.png".data "b.png".data "No Differences Found\n".data) =
      ("Comparison: ".data ++ "a.png".data ++ " vs ".data ++ "b.png".data) :: sepLine ::
        (pySplitlines "No Differences Found\n".data ++ [[], sepLine, []]) :=
  (c9_amended "a.png".data "b.png".data "No Differences Found\n".data
    (by decide) (by decide) (by decide)).1

/-- Claim C9 fails on the code as stated: NAME_PATTERN's trailing greedy
whitespace run ends the match at the end of the text when the name line is
last, so the resolved PERSON span of score 1.0 contains the body's final
newline.  Masking the diff body for the one-line diff -Name: Bob then yields
a body ending in the placeholder with no final newline, and the masked
section has no blank line between the last body line and the closing
eighty-equals separator, while the unmasked section does. -/
theorem c9_counterexample :
    nameMatchEnd (diffBody ["-Name: Bob".data]) 20 =
      some (diffBody ["-Name: Bob".data]).length ∧
    maskPii (diffBody ["-Name: Bob".data])
        (Except.ok [⟨"PERSON", 20, 30, ⟨1, 1, by decide, by decide⟩, true⟩]) =
      "Differences Found:\n-<PERSON>".data ∧
    (maskPii (diffBody ["-Name: Bob".data])
        (Except.ok [⟨"PERSON", 20, 30, ⟨1, 1, by decide, by decide⟩, true⟩])).getLast?
      ≠ some '\n' ∧
    pySplitlines (maskedSection "a.png".data "b.png".data ["-Name: Bob".data]
        (Except.ok [⟨"PERSON", 20, 30, ⟨1, 1, by decide, by decide⟩, true⟩])) =
      ["Comparison: a.png vs b.png".data, sepLine,
        "Differences Found:".data, "-<PERSON>".data, sepLine, []] ∧
    pySplitlines (unmaskedSection "a.png".data "b.png".data ["-Name: Bob".data]) =
      ["Comparison: a.png vs b.png".data, sepLine,
        "Differences Found:".data, "-Name: Bob".data, [], sepLine, []] := by
  refine ⟨by decide, by decide, by decide, by decide, by decide⟩

/-! ## Claim C8: the placeholder format of anonymization -/

/-- Every operator lookup yields the angle-bracketed entity type, for types
with an entry in the operator table and for types falling back to the
default alike. -/
theorem opsValue_eq (results : List EntitySpan) (t : String) :
    opsValue results t = '<' :: t.data ++ ['>'] := by
  unfold opsValue
  cases hf : results.find? (fun r => r.entityType == t) with
  | none => rfl
  | some r =>
    have hp := List.find?_some hf
    simp only [beq_iff_eq] at hp
    simp [hp]

/-- A well-formed span chain starts within the text. -/
theorem spanChain_le : ∀ (pos : Nat) (spans : List EntitySpan) (len : Nat),
    spanChain pos spans len = true → pos ≤ len := by
  intro pos spans
  induction spans generalizing pos with
  | nil =>
    intro len h
    simpa [spanChain] using h
  | cons s rest ih =>
    intro len h
    simp only [spanChain, Bool.and_eq_true, decide_eq_true_eq] at h
    obtain ⟨⟨hps, hss⟩, hch⟩ := h
    have := ih s.stop len hch
    omega

/-- The anonymize fold with the operator lookups inlined to placeholders. -/
theorem anonymize_eq_foldr (text : List Char) (results : List EntitySpan) :
    anonymize text results =
      results.foldr (fun s t => replaceRange t s.start s.stop (placeholderOf s)) text := by
  unfold anonymize
  have gen : ∀ l : List EntitySpan,
      l.foldr (fun s t => replaceRange t s.start s.stop (opsValue results s.entityType)) text =
        l.foldr (fun s t => replaceRange t s.start s.stop (placeholderOf s)) text := by
    intro l
    induction l with
    | nil => rfl
    | cons s rest ih =>
      simp only [List.foldr_cons, ih, opsValue_eq, placeholderOf]
  exact gen results

/-- The descending in-place replacement fold equals the ascending interleaving
of kept segments and placeholders, over any well-formed span chain. -/
theorem foldr_replace_eq_interleave (text : List Char) :
    ∀ (spans : List EntitySpan) (pos : Nat), spanChain pos spans text.length = true →
      spans.foldr (fun s t => replaceRange t s.start s.stop (placeholderOf s)) text =
        text.take pos ++ interleaveMask text pos spans := by
  intro spans
  induction spans with
  | nil =>
    intro pos _
    simp [interleaveMask]
  | cons s rest ih =>
    intro pos h
    simp only [spanChain, Bool.and_eq_true, decide_eq_true_eq] at h
    obtain ⟨⟨hps, hss⟩, hch⟩ := h
    have hstop : s.stop ≤ text.length := spanChain_le _ _ _ hch
    have hlenA : (text.take s.stop).length = s.stop := by
      simp [List.length_take]
      omega
    simp only [List.foldr_cons]
    rw [ih s.stop hch]
    have e1 : (text.take s.stop ++ interleaveMask text s.stop rest).take s.start =
        text.take s.start := by
      rw [List.take_append_eq_append_take, hlenA]
      have : s.start - s.stop = 0 := by omega
      rw [this, List.take_take, List.take_zero, List.append_nil, min_eq_left hss]
    have e2 : (text.take s.stop ++ interleaveMask text s.stop rest).drop s.stop =
        interleaveMask text s.stop rest := by
      rw [List.drop_append_eq_append_drop, hlenA]
      have h0 : s.stop - s.stop = 0 := by omega
      have hnil : (text.take s.stop).drop s.stop = [] := by
        apply List.drop_eq_nil_of_le
        omega
      rw [h0, hnil, List.drop_zero, List.nil_append]
    have e3 : text.take pos ++ (text.take s.start).drop pos = text.take s.start := by
      have h4 : (text.take s.start).take pos = text.take pos := by
        rw [List.take_take, min_eq_left hps]
      rw [← h4, List.take_append_drop]
    rw [show interleaveMask text pos (s :: rest) =
        pySlice text pos s.start ++ placeholderOf s ++ interleaveMask text s.stop rest from rfl]
    unfold replaceRange pySlice
    rw [e1, e2]
    conv_rhs => rw [← List.append_assoc, ← List.append_assoc]
    rw [e3]

/-- The requested entity type names are already upper case. -/
theorem analyzedEntities_upper :
    ∀ t ∈ analyzedEntities, t.data.map Char.toUpper = t.data := by
  decide

/-- The interleaved rendering coincides with the claim-side upper-case
rendering when all entity types are among the requested ones. -/
theorem interleaveMask_eq_spec (text : List Char) :
    ∀ (spans : List EntitySpan) (pos : Nat),
      (∀ s ∈ spans, s.entityType ∈ analyzedEntities) →
      interleaveMask text pos spans = interleaveSpec text pos spans := by
  intro spans
  induction spans with
  | nil => intro pos _; rfl
  | cons s rest ih =>
    intro pos ht
    unfold interleaveMask interleaveSpec placeholderOf
    rw [analyzedEntities_upper s.entityType (ht s (by simp)),
      ih s.stop (fun x hx => ht x (by simp [hx]))]

/-- Claim C8 (confirmed): over a well-formed resolved span list whose entity
types are among the entities requested by mask_pii, the anonymized text is
exactly the input text with each span's substring replaced by the placeholder
of angle brackets around the upper-case entity type, including for types with
no explicit operator entry (the default yields the same literal). -/
theorem c8_placeholder_format (text : List Char) (results : List EntitySpan)
    (hc : spanChain 0 results text.length = true)
    (ht : ∀ s ∈ results, s.entityType ∈ analyzedEntities) :
    anonymize text results = interleaveSpec text 0 results := by
  rw [anonymize_eq_foldr, foldr_replace_eq_interleave text results 0 hc,
    interleaveMask_eq_spec text results 0 ht]
  rfl

/-- Witness for C8 at a concrete SSN span. -/
theorem c8_witness :
    anonymize "SSN: 123-45-6789".data
        [⟨"SSN", 5, 16, ⟨9, 10, by decide, by decide⟩, true⟩] =
      interleaveSpec "SSN: 123-45-6789".data 0
        [⟨"SSN", 5, 16, ⟨9, 10, by decide, by decide⟩, true⟩] :=
  c8_placeholder_format _ _ (by decide) (by decide)

/-! ## Claim C7: threshold filtering at 0.6 -/

/-- Membership in an insertion. -/
theorem mem_insertByStart (x s : EntitySpan) :
    ∀ l : List EntitySpan, x ∈ insertByStart s l ↔ x = s ∨ x ∈ l := by
  intro l
  induction l with
  | nil => simp [insertByStart]
  | cons t rest ih =>
    unfold insertByStart
    by_cases h : s.start ≤ t.start
    · rw [if_pos h]
      simp
    · rw [if_neg h]
      simp [ih]
      tauto

/-- Sorting by start preserves membership. -/
theorem mem_sortByStart (x : EntitySpan) :
    ∀ l : List EntitySpan, x ∈ sortByStart l ↔ x ∈ l := by
  intro l
  induction l with
  | nil => simp [sortByStart]
  | cons s rest ih =>
    unfold sortByStart
    rw [mem_insertByStart, ih]
    simp

/-- Every member of a sweep cluster comes from the input or the seed. -/
theorem sweepClusters_mem (x : EntitySpan) :
    ∀ (l cur : List EntitySpan) (hi : Nat) (c : List EntitySpan),
      c ∈ sweepClusters l cur hi → x ∈ c → x ∈ l ∨ x ∈ cur := by
  intro l
  induction l with
  | nil =>
    intro cur hi c hc hx
    simp only [sweepClusters, List.mem_singleton] at hc
    subst hc
    right
    simpa using hx
  | cons s rest ih =>
    intro cur hi c hc hx
    unfold sweepClusters at hc
    by_cases h : s.start < hi
    · rw [if_pos h] at hc
      rcases ih (s :: cur) (max hi s.stop) c hc hx with h1 | h2
      · left
        simp [h1]
      · simp only [List.mem_cons] at h2
        rcases h2 with h2 | h2
        · left
          simp [h2]
        · right
          exact h2
    · rw [if_neg h] at hc
      simp only [List.mem_cons] at hc
      rcases hc with hc | hc
      · subst hc
        right
        simpa using hx
      · rcases ih [s] s.stop c hc hx with h1 | h2
        · left
          simp [h1]
        · left
          simp only [List.mem_singleton] at h2
          simp [h2]

/-- Every member of an overlap cluster comes from the input list. -/
theorem overlapClusters_mem (x : EntitySpan) :
    ∀ (l : List EntitySpan) (c : List EntitySpan),
      c ∈ overlapClusters l → x ∈ c → x ∈ l := by
  intro l c
  cases l with
  | nil => simp [overlapClusters]
  | cons s rest =>
    intro hc hx
    rcases sweepClusters_mem x rest [s] s.stop c hc hx with h1 | h2
    · simp [h1]
    · simp only [List.mem_singleton] at h2
      simp [h2]

/-- The preferred span of a cluster is a member of it. -/
theorem pickBest_mem (c : List EntitySpan) (x : EntitySpan) (h : pickBest c = some x) :
    x ∈ c := by
  cases c with
  | nil => simp [pickBest] at h
  | cons s rest =>
    simp only [pickBest, Option.some_inj] at h
    have gen : ∀ (l : List EntitySpan) (b : EntitySpan),
        l.foldl (fun b t => if betterSpan t b then t else b) b = b ∨
          l.foldl (fun b t => if betterSpan t b then t else b) b ∈ l := by
      intro l
      induction l with
      | nil => intro b; left; rfl
      | cons t rest2 ih =>
        intro b
        simp only [List.foldl_cons]
        by_cases hb : betterSpan t b = true
        · rw [if_pos hb]
          rcases ih t with h1 | h1
          · right
            simp [h1]
          · right
            simp [h1]
        · rw [if_neg hb]
          rcases ih b with h1 | h1
          · left
            exact h1
          · right
            simp [h1]
    rcases gen rest s with h1 | h1
    · subst h
      rw [h1]
      simp
    · subst h
      simp [h1]

/-- Resolved spans all survive the threshold filter. -/
theorem resolveSpans_subset (spans : List EntitySpan) (θ : ℚ) (x : EntitySpan)
    (h : x ∈ resolveSpans spans θ) : x ∈ thresholdFilter spans θ := by
  unfold resolveSpans at h
  rw [List.mem_filterMap] at h
  obtain ⟨c, hc, hpick⟩ := h
  have hx : x ∈ c := pickBest_mem c x hpick
  have := overlapClusters_mem x _ c hc hx
  rw [mem_sortByStart] at this
  exact this

/-- Claim C7 (confirmed): masking acts on a detected span only if its score
reaches the configured 0.6 threshold: every resolved span scores at least
0.6, a span scoring 0.5 is dropped from the resolved list (and its text left
untouched by the replacement, which only rewrites resolved spans), and every
detected span scoring at least 0.6 survives the threshold filter. -/
theorem c7_threshold (spans : List EntitySpan) (s : EntitySpan) :
    (s ∈ resolveSpans spans scoreThreshold → scoreThreshold ≤ s.score) ∧
    (s.score = ⟨1, 2, by decide, by decide⟩ → s ∉ resolveSpans spans scoreThreshold) ∧
    (s ∈ spans → scoreThreshold ≤ s.score → s ∈ thresholdFilter spans scoreThreshold) := by
  have key : s ∈ resolveSpans spans scoreThreshold → scoreThreshold ≤ s.score := by
    intro h
    have := resolveSpans_subset spans scoreThreshold s h
    unfold thresholdFilter at this
    rw [List.mem_filter] at this
    simpa using this.2
  refine ⟨key, ?_, ?_⟩
  · intro hs hmem
    have := key hmem
    rw [hs] at this
    exact absurd this (by decide)
  · intro hmem hsc
    unfold thresholdFilter
    rw [List.mem_filter]
    exact ⟨hmem, by simpa using hsc⟩

/-- Witness for C7: a 0.5-scoring span is dropped, a 0.9-scoring span is
kept by the filter. -/
theorem c7_witness :
    (⟨"PERSON", 0, 5, ⟨1, 2, by decide, by decide⟩, false⟩ : EntitySpan) ∉
      resolveSpans
        [⟨"PERSON", 0, 5, ⟨1, 2, by decide, by decide⟩, false⟩,
         ⟨"SSN", 10, 21, ⟨9, 10, by decide, by decide⟩, true⟩] scoreThreshold ∧
    (⟨"SSN", 10, 21, ⟨9, 10, by decide, by decide⟩, true⟩ : EntitySpan) ∈
      thresholdFilter
        [⟨"PERSON", 0, 5, ⟨1, 2, by decide, by decide⟩, false⟩,
         ⟨"SSN", 10, 21, ⟨9, 10, by decide, by decide⟩, true⟩] scoreThreshold :=
  ⟨(c7_threshold _ _).2.1 rfl,
   (c7_threshold _ _).2.2 (by decide) (by decide)⟩

/-! ## Claim C3: line count under anonymization -/

/-- A break-free text does not start with a newline. -/
theorem breakFree_head_ne (c : Char) (r2 : List Char) (h : breakFree (c :: r2) = true) :
    c ≠ '\n' := by
  intro e
  subst e
  simp [breakFree, isLineBreak] at h

/-- Line counts are preserved when the text after an arbitrary prefix is
replaced by one with the same line counts under every pending accumulator,
both being nonempty and not starting with a newline. -/
theorem splitLinesAux_length_context :
    ∀ (a s t acc : List Char), s ≠ [] → t ≠ [] →
      s.head? ≠ some '\n' → t.head? ≠ some '\n' →
      (∀ acc2 : List Char, (splitLinesAux s acc2).length = (splitLinesAux t acc2).length) →
      (splitLinesAux (a ++ s) acc).length = (splitLinesAux (a ++ t) acc).length := by
  have main : ∀ (n : Nat) (a s t acc : List Char), a.length ≤ n → s ≠ [] → t ≠ [] →
      s.head? ≠ some '\n' → t.head? ≠ some '\n' →
      (∀ acc2 : List Char, (splitLinesAux s acc2).length = (splitLinesAux t acc2).length) →
      (splitLinesAux (a ++ s) acc).length = (splitLinesAux (a ++ t) acc).length := by
    intro n
    induction n with
    | zero =>
      intro a s t acc ha hs ht hsn htn hlen
      have hanil : a = [] := List.length_eq_zero.mp (Nat.le_zero.mp ha)
      subst hanil
      simpa using hlen acc
    | succ n ih =>
      intro a s t acc ha hs ht hsn htn hlen
      cases a with
      | nil => simpa using hlen acc
      | cons c a2 =>
        simp only [List.cons_append]
        rw [splitLinesAux_cons c (a2 ++ s) acc, splitLinesAux_cons c (a2 ++ t) acc]
        cases a2 with
        | nil =>
          simp only [List.nil_append]
          have hc1 : ¬(c = '\r' ∧ s.head? = some '\n') := fun hx => hsn hx.2
          have hc2 : ¬(c = '\r' ∧ t.head? = some '\n') := fun hx => htn hx.2
          rw [if_neg hc1, if_neg hc2]
          by_cases hb : isLineBreak c = true
          · rw [if_pos hb, if_pos hb]
            simp only [List.length_cons]
            rw [hlen []]
          · rw [if_neg hb, if_neg hb]
            exact hlen (c :: acc)
        | cons d a3 =>
          have hlen3 : (d :: a3).length ≤ n := by
            simp only [List.length_cons] at ha ⊢
            omega
          by_cases hcd : c = '\r' ∧ d = '\n'
          · have hx1 : c = '\r' ∧ ((d :: a3) ++ s).head? = some '\n' := by
              refine ⟨hcd.1, ?_⟩
              rw [show ((d :: a3) ++ s).head? = some d from rfl, hcd.2]
            have hx2 : c = '\r' ∧ ((d :: a3) ++ t).head? = some '\n' := by
              refine ⟨hcd.1, ?_⟩
              rw [show ((d :: a3) ++ t).head? = some d from rfl, hcd.2]
            rw [if_pos hx1, if_pos hx2]
            simp only [List.cons_append, List.tail_cons, List.length_cons]
            have ha3 : a3.length ≤ n := by
              simp only [List.length_cons] at hlen3
              omega
            rw [ih a3 s t [] ha3 hs ht hsn htn hlen]
          · have hx1 : ¬(c = '\r' ∧ ((d :: a3) ++ s).head? = some '\n') := by
              intro hx
              apply hcd
              refine ⟨hx.1, ?_⟩
              have := hx.2
              rw [show ((d :: a3) ++ s).head? = some d from rfl] at this
              exact Option.some_inj.mp this
            have hx2 : ¬(c = '\r' ∧ ((d :: a3) ++ t).head? = some '\n') := by
              intro hx
              apply hcd
              refine ⟨hx.1, ?_⟩
              have := hx.2
              rw [show ((d :: a3) ++ t).head? = some d from rfl] at this
              exact Option.some_inj.mp this
            rw [if_neg hx1, if_neg hx2]
            by_cases hb : isLineBreak c = true
            · rw [if_pos hb, if_pos hb]
              simp only [List.length_cons]
              rw [ih (d :: a3) s t [] hlen3 hs ht hsn htn hlen]
            · rw [if_neg hb, if_neg hb]
              exact ih (d :: a3) s t (c :: acc) hlen3 hs ht hsn htn hlen
  intro a s t acc hs ht hsn htn hlen
  exact main a.length a s t acc (le_refl _) hs ht hsn htn hlen

/-- Replacing a nonempty break-free middle by another nonempty break-free
middle preserves the line count. -/
theorem lineCount_replace (a r m b : List Char)
    (hr : breakFree r = true) (hr0 : r ≠ []) (hm : breakFree m = true) (hm0 : m ≠ []) :
    lineCount (a ++ (r ++ b)) = lineCount (a ++ (m ++ b)):= by
  unfold lineCount pySplitlines
  apply splitLinesAux_length_context a (r ++ b) (m ++ b) []
  · cases r with
    | nil => exact absurd rfl hr0
    | cons c r2 => simp
  · cases m with
    | nil => exact absurd rfl hm0
    | cons c m2 => simp
  · cases r with
    | nil => exact absurd rfl hr0
    | cons c r2 =>
      rw [show ((c :: r2) ++ b).head? = some c from rfl]
      intro he
      exact breakFree_head_ne c r2 hr (Option.some_inj.mp he)
  · cases m with
    | nil => exact absurd rfl hm0
    | cons c m2 =>
      rw [show ((c :: m2) ++ b).head? = some c from rfl]
      intro he
      exact breakFree_head_ne c m2 hm (Option.some_inj.mp he)
  · intro acc2
    rw [splitLinesAux_breakFree_append r hr b acc2, splitLinesAux_breakFree_append m hm b acc2]
    apply splitLinesAux_length_acc
    · intro he
      rcases List.append_eq_nil.mp he with ⟨he1, _⟩
      exact hr0 (by simpa using he1)
    · intro he
      rcases List.append_eq_nil.mp he with ⟨he1, _⟩
      exact hm0 (by simpa using he1)

/-- The interleaved rendering preserves line counts when every span substring
is nonempty and break-free and every placeholder is break-free. -/
theorem lineCount_interleaveMask (text : List Char) :
    ∀ (spans : List EntitySpan) (pos : Nat), spanChain pos spans text.length = true →
      (∀ s ∈ spans, breakFree (pySlice text s.start s.stop) = true ∧ s.start < s.stop ∧
        breakFree (placeholderOf s) = true) →
      lineCount (text.take pos ++ interleaveMask text pos spans) = lineCount text := by
  intro spans
  induction spans with
  | nil =>
    intro pos _ _
    rw [show interleaveMask text pos [] = text.drop pos from rfl, List.take_append_drop]
  | cons s rest ih =>
    intro pos hch hprops
    simp only [spanChain, Bool.and_eq_true, decide_eq_true_eq] at hch
    obtain ⟨⟨hps, hss⟩, hch2⟩ := hch
    obtain ⟨hsubBF, hlt, hphBF⟩ := hprops s (by simp)
    have hrest : ∀ x ∈ rest, breakFree (pySlice text x.start x.stop) = true ∧
        x.start < x.stop ∧ breakFree (placeholderOf x) = true :=
      fun x hx => hprops x (by simp [hx])
    have hstop : s.stop ≤ text.length := spanChain_le _ _ _ hch2
    have htake : text.take s.stop = text.take s.start ++ pySlice text s.start s.stop := by
      conv_lhs => rw [← List.take_append_drop s.start (text.take s.stop)]
      rw [List.take_take, min_eq_left hss]
      rfl
    have hkey := ih s.stop hch2 hrest
    rw [htake, List.append_assoc] at hkey
    rw [show interleaveMask text pos (s :: rest) =
        pySlice text pos s.start ++ placeholderOf s ++ interleaveMask text s.stop rest from rfl]
    have hpos : text.take pos ++ pySlice text pos s.start = text.take s.start := by
      conv_rhs => rw [← List.take_append_drop pos (text.take s.start)]
      rw [List.take_take, min_eq_left hps]
      rfl
    rw [List.append_assoc, ← List.append_assoc, hpos]
    have hsl0 : pySlice text s.start s.stop ≠ [] := by
      intro he
      have := congrArg List.length he
      unfold pySlice at this
      rw [List.length_drop, List.length_take] at this
      simp only [List.length_nil] at this
      omega
    have hph0 : placeholderOf s ≠ [] := by
      unfold placeholderOf
      simp
    rw [← lineCount_replace (text.take s.start) (pySlice text s.start s.stop)
      (placeholderOf s) (interleaveMask text s.stop rest) hsubBF hsl0 hphBF hph0] at *
    exact hkey

/-- The requested entity type names contain no line break. -/
theorem analyzedEntities_breakFree :
    ∀ t ∈ analyzedEntities, breakFree t.data = true := by
  decide

/-- Placeholders of requested entity types are break-free. -/
theorem placeholderOf_breakFree (s : EntitySpan) (h : s.entityType ∈ analyzedEntities) :
    breakFree (placeholderOf s) = true := by
  have hT := analyzedEntities_breakFree s.entityType h
  unfold breakFree at hT ⊢
  unfold placeholderOf
  simp only [List.all_cons, List.all_append, hT]
  decide

/-- Claim C3 as amended: anonymization preserves the line count whenever no
resolved span's substring contains a line-break character (the placeholders
never do, entity type names being break-free); the email pattern though can
resolve a span across a newline, in which case masking merges lines and the
line count shrinks, as the counterexample shows. -/
theorem c3_amended (text : List Char) (results : List EntitySpan)
    (hc : spanChain 0 results text.length = true)
    (hsub : ∀ s ∈ results, breakFree (pySlice text s.start s.stop) = true ∧ s.start < s.stop)
    (ht : ∀ s ∈ results, s.entityType ∈ analyzedEntities) :
    lineCount (anonymize text results) = lineCount text := by
  rw [anonymize_eq_foldr, foldr_replace_eq_interleave text results 0 hc]
  exact lineCount_interleaveMask text results 0 hc
    (fun s hs => ⟨(hsub s hs).1, (hsub s hs).2, placeholderOf_breakFree s (ht s hs)⟩)

/-- Witness for C3 as amended, at a concrete phone-number span. -/
theorem c3_witness :
    lineCount (anonymize "Phone: 555-123-4567\n".data
      [⟨"PHONE_NUMBER", 7, 19, ⟨19, 20, by decide, by decide⟩, true⟩]) =
      lineCount "Phone: 555-123-4567\n".data :=
  c3_amended "Phone: 555-123-4567\n".data
    [⟨"PHONE_NUMBER", 7, 19, ⟨19, 20, by decide, by decide⟩, true⟩]
    (by decide) (by decide) (by decide)

/-- Claim C3 fails on the code: the email pattern's separator class matches a
newline, so a resolved span can cross a line boundary; masking such a span
removes the boundary and changes the line count.  The two-line text below is
matched whole by EMAIL_PATTERN (score 0.8, above the 0.6 threshold) and
mask_pii rewrites it to a one-line text. -/
theorem c3_counterexample :
    emailWholeMatch "ab\ncd.ef".data = true ∧
    scoreThreshold ≤ (⟨4, 5, by decide, by decide⟩ : ℚ) ∧
    maskPii "ab\ncd.ef".data
        (Except.ok [⟨"EMAIL_ADDRESS", 0, 8, ⟨4, 5, by decide, by decide⟩, true⟩]) =
      "<EMAIL_ADDRESS>".data ∧
    lineCount "ab\ncd.ef".data = 2 ∧
    lineCount "<EMAIL_ADDRESS>".data = 1 := by
  decide

/-! ## Claim C10: the downstream section parser -/

/-- A header-marker line is not eligible for a diff field. -/
theorem eligible_of_marker (line : List Char)
    (h : (startsWith line "Document Comparison Report".data ||
      startsWith line "Generated:".data) = true) :
    eligibleDiffLine line = false := by
  unfold eligibleDiffLine
  rcases Bool.or_eq_true_iff.mp h with h1 | h1 <;> simp [h1]

/-- The parser loop refines the reference splitter, in both loop states. -/
theorem readDiffLoop_spec :
    ∀ lines : List (List Char),
      (∀ diffLines header : List (List Char),
        (readDiffLoop lines none diffLines header).map (fun s => (s.comparison, s.diff)) =
          sectionsSpec lines none) ∧
      (∀ (c : List Char) (hdr diffLines header : List (List Char)),
        (readDiffLoop lines (some (c, hdr)) diffLines header).map
            (fun s => (s.comparison, s.diff)) =
          sectionsSpec lines (some (c, diffLines))) := by
  intro lines
  induction lines with
  | nil =>
    constructor
    · intro dl hd
      rfl
    · intro c hdr dl hd
      unfold readDiffLoop sectionsSpec
      by_cases he : dl.isEmpty
      · simp [he]
      · simp [he]
  | cons line rest ih =>
    constructor
    · intro dl hd
      unfold readDiffLoop sectionsSpec
      by_cases h1 : startsWith line "Comparison:".data = true
      · rw [if_pos h1, if_pos h1]
        simp only [List.nil_append]
        exact ih.2 line (lastTwo hd) [] hd
      · rw [if_neg h1, if_neg h1]
        by_cases h2 : (startsWith line "Document Comparison Report".data ||
            startsWith line "Generated:".data) = true
        · rw [if_pos h2]
          rw [show (Option.map (fun p => (p.1, p.2 ++ (if eligibleDiffLine line
            then [line] else []))) (none : Option (List Char × List (List Char)))) = none
            from rfl]
          exact ih.1 dl (hd ++ [line])
        · rw [if_neg h2]
          rw [show ((none : Option (List Char × List (List Char))).isSome &&
            !(blankLine line)) = false from rfl, if_neg (by simp)]
          rw [show (Option.map (fun p => (p.1, p.2 ++ (if eligibleDiffLine line
            then [line] else []))) (none : Option (List Char × List (List Char)))) = none
            from rfl]
          exact ih.1 dl hd
    · intro c hdr dl hd
      unfold readDiffLoop sectionsSpec
      by_cases h1 : startsWith line "Comparison:".data = true
      · rw [if_pos h1, if_pos h1]
        rw [List.map_append]
        rw [ih.2 line (lastTwo hd) [] hd]
        rfl
      · rw [if_neg h1, if_neg h1]
        by_cases h2 : (startsWith line "Document Comparison Report".data ||
            startsWith line "Generated:".data) = true
        · rw [if_pos h2]
          rw [show (Option.map (fun p => (p.1, p.2 ++ (if eligibleDiffLine line
            then [line] else []))) (some (c, dl))) =
            some (c, dl ++ (if eligibleDiffLine line then [line] else [])) from rfl]
          rw [eligible_of_marker line h2]
          simp only [if_neg (by simp : ¬False), Bool.false_eq_true, if_false, List.append_nil]
          exact ih.2 c hdr dl (hd ++ [line])
        · rw [if_neg h2]
          rw [show (Option.map (fun p => (p.1, p.2 ++ (if eligibleDiffLine line
            then [line] else []))) (some (c, dl))) =
            some (c, dl ++ (if eligibleDiffLine line then [line] else [])) from rfl]
          have h2a : startsWith line "Document Comparison Report".data = false := by
            revert h2
            cases startsWith line "Document Comparison Report".data <;> simp
          have h2b : startsWith line "Generated:".data = false := by
            revert h2
            cases startsWith line "Generated:".data <;> simp
          by_cases h3 : blankLine line = true
          · rw [show ((some (c, hdr)).isSome && !(blankLine line)) = false by simp [h3],
              if_neg (by simp)]
            have he : eligibleDiffLine line = false := by
              unfold eligibleDiffLine
              simp [h3]
            rw [he]
            simp only [Bool.false_eq_true, if_false, List.append_nil]
            exact ih.2 c hdr dl hd
          · have h3f : blankLine line = false := by
              revert h3
              cases blankLine line <;> simp
            rw [show ((some (c, hdr)).isSome && !(blankLine line)) = true by simp [h3f],
              if_pos rfl]
            have he : eligibleDiffLine line = true := by
              unfold eligibleDiffLine
              simp [h3f, h2a, h2b]
            rw [he]
            simp only [if_pos rfl]
            exact ih.2 c hdr (dl ++ [line]) hd

/-- Claim C10 as amended: read_diff_file returns one section per line starting
with "Comparison:", except that the final one is silently dropped when no line
after it is eligible; a section's diff field consists precisely of the
eligible lines before the next comparison line, an eligible line being one
that is neither blank nor starting with one of the header markers
"Document Comparison Report" or "Generated:" (header-marker lines are diverted
to the header state even inside a section). -/
theorem c10_amended (content : List Char) :
    (readDiffFile content).map (fun s => (s.comparison, s.diff)) =
      sectionsSpec (pySplitlines content) none :=
  (readDiffLoop_spec (pySplitlines content)).1 [] []

/-- Claim C10 fails on the code as stated: a non-blank line starting with
"Generated:" after a comparison line is not part of the returned diff field
(first conjunct), and a final section followed only by such a line is dropped
entirely even though not every line after it is blank (second conjunct). -/
theorem c10_counterexample :
    (readDiffFile "Comparison: a vs b\nGenerated: x\nfoo".data).map DiffSection.diff =
      ["foo".data] ∧
    readDiffFile "Comparison: a vs b\nGenerated: x".data = [] := by
  decide

/-! ## Claim C4: coverage of the diff.  Bounds of find_longest_match -/

/-- One inner step preserves the table bounds and the block bounds. -/
theorem flmStep_inv (prev : Nat → Nat) (i alo ahi blo bhi j : Nat)
    (halo : alo ≤ i) (hahi : i < ahi)
    (hprev : ∀ x, prev x ≤ i - alo ∧ (0 < prev x → blo ≤ x ∧ prev x ≤ x + 1 - blo))
    (hj : blo ≤ j ∧ j < bhi)
    (st : (Nat → Nat) × MatchBlock)
    (h1 : ∀ x, st.1 x ≤ i + 1 - alo ∧ (0 < st.1 x → blo ≤ x ∧ st.1 x ≤ x + 1 - blo))
    (h2 : InBounds alo ahi blo bhi st.2) :
    (∀ x, (flmStep prev i st j).1 x ≤ i + 1 - alo ∧
        (0 < (flmStep prev i st j).1 x → blo ≤ x ∧
          (flmStep prev i st j).1 x ≤ x + 1 - blo)) ∧
    InBounds alo ahi blo bhi (flmStep prev i st j).2 := by
  have hk1 : (if j = 0 then 0 else prev (j - 1)) + 1 ≤ i + 1 - alo := by
    by_cases hj0 : j = 0
    · rw [if_pos hj0]
      omega
    · rw [if_neg hj0]
      have := (hprev (j - 1)).1
      omega
  have hk2 : (if j = 0 then 0 else prev (j - 1)) + 1 ≤ j + 1 - blo := by
    by_cases hj0 : j = 0
    · rw [if_pos hj0]
      have := hj.1
      omega
    · rw [if_neg hj0]
      by_cases hp : 0 < prev (j - 1)
      · have h3 := (hprev (j - 1)).2 hp
        have := hj.1
        omega
      · have hz : prev (j - 1) = 0 := by omega
        rw [hz]
        have := hj.1
        omega
  constructor
  · intro x
    unfold flmStep
    simp only
    by_cases hxj : x = j
    · rw [if_pos hxj]
      refine ⟨hk1, fun _ => ?_⟩
      rw [hxj]
      exact ⟨hj.1, hk2⟩
    · rw [if_neg hxj]
      exact h1 x
  · unfold flmStep
    simp only
    by_cases hlt : st.2.size < (if j = 0 then 0 else prev (j - 1)) + 1
    · rw [if_pos hlt]
      unfold InBounds
      simp only
      have hjb := hj.1
      have hjh := hj.2
      refine ⟨by omega, by omega, by omega, by omega⟩
    · rw [if_neg hlt]
      exact h2

/-- The inner fold preserves the table bounds and the block bounds. -/
theorem flmInner_inv (prev : Nat → Nat) (i alo ahi blo bhi : Nat)
    (halo : alo ≤ i) (hahi : i < ahi)
    (hprev : ∀ x, prev x ≤ i - alo ∧ (0 < prev x → blo ≤ x ∧ prev x ≤ x + 1 - blo)) :
    ∀ (js : List Nat) (st : (Nat → Nat) × MatchBlock),
      (∀ j ∈ js, blo ≤ j ∧ j < bhi) →
      (∀ x, st.1 x ≤ i + 1 - alo ∧ (0 < st.1 x → blo ≤ x ∧ st.1 x ≤ x + 1 - blo)) →
      InBounds alo ahi blo bhi st.2 →
      (∀ x, (js.foldl (flmStep prev i) st).1 x ≤ i + 1 - alo ∧
          (0 < (js.foldl (flmStep prev i) st).1 x → blo ≤ x ∧
            (js.foldl (flmStep prev i) st).1 x ≤ x + 1 - blo)) ∧
      InBounds alo ahi blo bhi (js.foldl (flmStep prev i) st).2 := by
  intro js
  induction js with
  | nil =>
    intro st _ h1 h2
    exact ⟨h1, h2⟩
  | cons j js2 ih =>
    intro st hjs h1 h2
    simp only [List.foldl_cons]
    have hstep := flmStep_inv prev i alo ahi blo bhi j halo hahi hprev
      (hjs j (by simp)) st h1 h2
    exact ih (flmStep prev i st j) (fun x hx => hjs x (by simp [hx])) hstep.1 hstep.2

/-- The occurrence positions scanned in a row lie inside the b-range. -/
theorem flmRow_js_mem (a b : List Line) (blo bhi i : Nat) :
    ∀ j ∈ (match a.get? i with
      | some x => ((b2j b x).filter (fun j => decide (blo ≤ j))).takeWhile
          (fun j => decide (j < bhi))
      | none => ([] : List Nat)), blo ≤ j ∧ j < bhi := by
  cases hx : a.get? i with
  | none => simp
  | some x =>
    intro j hj
    simp only at hj
    have h1 : decide (j < bhi) = true :=
      List.mem_takeWhile_imp (p := fun j => decide (j < bhi)) hj
    have h2 : j ∈ (b2j b x).filter (fun j => decide (blo ≤ j)) :=
      (List.takeWhile_sublist _).subset hj
    rw [List.mem_filter] at h2
    exact ⟨by simpa using h2.2, by simpa using h1⟩

/-- The row fold keeps the best block inside the ranges. -/
theorem flmScan_bounds_aux (a b : List Line) (alo ahi blo bhi : Nat) :
    ∀ (cnt i : Nat) (st : (Nat → Nat) × MatchBlock), alo ≤ i → i + cnt ≤ ahi →
      (∀ x, st.1 x ≤ i - alo ∧ (0 < st.1 x → blo ≤ x ∧ st.1 x ≤ x + 1 - blo)) →
      InBounds alo ahi blo bhi st.2 →
      InBounds alo ahi blo bhi (((List.range' i cnt).foldl (flmRow a b blo bhi) st)).2 := by
  intro cnt
  induction cnt with
  | zero =>
    intro i st _ _ _ h2
    simpa using h2
  | succ n ih =>
    intro i st hi hcnt h1 h2
    rw [show List.range' i (n + 1) = i :: List.range' (i + 1) n from rfl]
    simp only [List.foldl_cons]
    have hrow := flmInner_inv st.1 i alo ahi blo bhi hi (by omega) h1
      _ ((fun _ => 0), st.2) (flmRow_js_mem a b blo bhi i)
      (fun x => ⟨by simp, by simp⟩) h2
    have hstep : flmRow a b blo bhi st i =
        ((match a.get? i with
          | some x => ((b2j b x).filter (fun j => decide (blo ≤ j))).takeWhile
              (fun j => decide (j < bhi))
          | none => ([] : List Nat)).foldl (flmStep st.1 i) ((fun _ => 0), st.2)) := rfl
    rw [hstep]
    exact ih (i + 1)
      _ (by omega) (by omega)
      (fun x => ⟨by have := (hrow.1 x).1; omega, (hrow.1 x).2⟩) hrow.2

/-- The dynamic-programming scan returns a block inside the ranges. -/
theorem flmScan_bounds (a b : List Line) (alo ahi blo bhi : Nat)
    (h1 : alo ≤ ahi) (h2 : blo ≤ bhi) :
    InBounds alo ahi blo bhi (flmScan a b alo ahi blo bhi) := by
  unfold flmScan
  apply flmScan_bounds_aux a b alo ahi blo bhi (ahi - alo) alo _ (le_refl _) (by omega)
  · intro x
    exact ⟨by simp, by simp⟩
  · exact ⟨le_refl _, le_refl _, by simpa using h1, by simpa using h2⟩

/-- Left extension keeps the block cursor in range and fixes the two ends. -/
theorem extendLeft_bounds (a b : List Line) (alo blo : Nat) :
    ∀ (bi bj sz : Nat), alo ≤ bi → blo ≤ bj →
      alo ≤ (extendLeft a b alo blo bi bj sz).besti ∧
      blo ≤ (extendLeft a b alo blo bi bj sz).bestj ∧
      (extendLeft a b alo blo bi bj sz).besti + (extendLeft a b alo blo bi bj sz).size
        = bi + sz ∧
      (extendLeft a b alo blo bi bj sz).bestj + (extendLeft a b alo blo bi bj sz).size
        = bj + sz := by
  intro bi
  induction bi with
  | zero =>
    intro bj sz h1 h2
    exact ⟨h1, h2, by simp [extendLeft], by simp [extendLeft]⟩
  | succ bi ih =>
    intro bj sz h1 h2
    unfold extendLeft
    by_cases hc : alo ≤ bi ∧ blo < bj ∧ matchAt a b bi (bj - 1) = true
    · rw [if_pos hc]
      have hr := ih (bj - 1) (sz + 1) hc.1 (by omega)
      refine ⟨hr.1, hr.2.1, by omega, ?_⟩
      have := hr.2.2.2
      have := hc.2.1
      omega
    · rw [if_neg hc]
      exact ⟨h1, h2, rfl, rfl⟩

/-- Right extension stays within its fuel and within the b-range. -/
theorem extendRightFuel_bounds (a b : List Line) (bhi besti bestj : Nat) :
    ∀ (fuel sz : Nat), bestj + sz ≤ bhi →
      sz ≤ extendRightFuel a b bhi besti bestj sz fuel ∧
      extendRightFuel a b bhi besti bestj sz fuel ≤ sz + fuel ∧
      bestj + extendRightFuel a b bhi besti bestj sz fuel ≤ bhi := by
  intro fuel
  induction fuel with
  | zero =>
    intro sz h
    exact ⟨le_refl _, by simp [extendRightFuel], by simpa [extendRightFuel] using h⟩
  | succ f ih =>
    intro sz h
    unfold extendRightFuel
    by_cases hc : bestj + sz < bhi ∧ matchAt a b (besti + sz) (bestj + sz) = true
    · rw [if_pos hc]
      have hr := ih (sz + 1) (by omega)
      exact ⟨by omega, by omega, hr.2.2⟩
    · rw [if_neg hc]
      exact ⟨le_refl _, by omega, h⟩

/-- find_longest_match returns a block inside the queried ranges. -/
theorem findLongestMatch_bounds (a b : List Line) (alo ahi blo bhi : Nat)
    (h1 : alo ≤ ahi) (h2 : blo ≤ bhi) :
    InBounds alo ahi blo bhi (findLongestMatch a b alo ahi blo bhi) := by
  obtain ⟨ha1, ha2, ha3, ha4⟩ := flmScan_bounds a b alo ahi blo bhi h1 h2
  have he := extendLeft_bounds a b alo blo (flmScan a b alo ahi blo bhi).besti
    (flmScan a b alo ahi blo bhi).bestj (flmScan a b alo ahi blo bhi).size ha1 ha2
  obtain ⟨hb1, hb2, hb3, hb4⟩ := he
  have hr := extendRightFuel_bounds a b bhi
    (extendLeft a b alo blo (flmScan a b alo ahi blo bhi).besti
      (flmScan a b alo ahi blo bhi).bestj (flmScan a b alo ahi blo bhi).size).besti
    (extendLeft a b alo blo (flmScan a b alo ahi blo bhi).besti
      (flmScan a b alo ahi blo bhi).bestj (flmScan a b alo ahi blo bhi).size).bestj
    (ahi - ((extendLeft a b alo blo (flmScan a b alo ahi blo bhi).besti
      (flmScan a b alo ahi blo bhi).bestj (flmScan a b alo ahi blo bhi).size).besti +
      (extendLeft a b alo blo (flmScan a b alo ahi blo bhi).besti
      (flmScan a b alo ahi blo bhi).bestj (flmScan a b alo ahi blo bhi).size).size))
    (extendLeft a b alo blo (flmScan a b alo ahi blo bhi).besti
      (flmScan a b alo ahi blo bhi).bestj (flmScan a b alo ahi blo bhi).size).size
    (by omega)
  unfold findLongestMatch InBounds
  simp only
  refine ⟨hb1, hb2, ?_, hr.2.2⟩
  have := hr.2.1
  omega

/-- Chains may start earlier. -/
theorem chainLe_weaken :
    ∀ (blocks : List (Nat × Nat × Nat)) (i j i2 j2 ahi bhi : Nat),
      ChainLe i j blocks ahi bhi → i2 ≤ i → j2 ≤ j → ChainLe i2 j2 blocks ahi bhi := by
  intro blocks
  cases blocks with
  | nil =>
    intro i j i2 j2 ahi bhi h h1 h2
    obtain ⟨ha, hb⟩ := h
    exact ⟨by omega, by omega⟩
  | cons blk rest =>
    obtain ⟨ai, bj, k⟩ := blk
    intro i j i2 j2 ahi bhi h h1 h2
    obtain ⟨ha, hb, hc⟩ := h
    exact ⟨by omega, by omega, hc⟩

/-- Chains compose. -/
theorem chainLe_append :
    ∀ (xs ys : List (Nat × Nat × Nat)) (i j p q ahi bhi : Nat),
      ChainLe i j xs p q → ChainLe p q ys ahi bhi → ChainLe i j (xs ++ ys) ahi bhi := by
  intro xs
  induction xs with
  | nil =>
    intro ys i j p q ahi bhi h1 h2
    obtain ⟨ha, hb⟩ := h1
    simpa using chainLe_weaken ys p q i j ahi bhi h2 ha hb
  | cons blk rest ih =>
    obtain ⟨ai, bj, k⟩ := blk
    intro ys i j p q ahi bhi h1 h2
    obtain ⟨ha, hb, hc⟩ := h1
    exact ⟨ha, hb, ih ys (ai + k) (bj + k) p q ahi bhi hc h2⟩

/-- The recursive block collection chains within its query range. -/
theorem matchingBlocksFuel_chainLe (a b : List Line) :
    ∀ (fuel alo ahi blo bhi : Nat), alo ≤ ahi → blo ≤ bhi →
      ChainLe alo blo (matchingBlocksFuel a b fuel alo ahi blo bhi) ahi bhi := by
  intro fuel
  induction fuel with
  | zero =>
    intro alo ahi blo bhi h1 h2
    exact ⟨h1, h2⟩
  | succ f ih =>
    intro alo ahi blo bhi h1 h2
    obtain ⟨hm1, hm2, hm3, hm4⟩ := findLongestMatch_bounds a b alo ahi blo bhi h1 h2
    unfold matchingBlocksFuel
    simp only
    by_cases hz : (findLongestMatch a b alo ahi blo bhi).size = 0
    · rw [if_pos hz]
      exact ⟨h1, h2⟩
    · rw [if_neg hz]
      apply chainLe_append _ _ alo blo (findLongestMatch a b alo ahi blo bhi).besti
        (findLongestMatch a b alo ahi blo bhi).bestj ahi bhi
      · by_cases hL : alo < (findLongestMatch a b alo ahi blo bhi).besti ∧
            blo < (findLongestMatch a b alo ahi blo bhi).bestj
        · rw [if_pos hL]
          exact ih alo _ blo _ (le_of_lt hL.1) (le_of_lt hL.2)
        · rw [if_neg hL]
          exact ⟨hm1, hm2⟩
      · refine ⟨le_refl _, le_refl _, ?_⟩
        by_cases hR : (findLongestMatch a b alo ahi blo bhi).besti +
              (findLongestMatch a b alo ahi blo bhi).size < ahi ∧
            (findLongestMatch a b alo ahi blo bhi).bestj +
              (findLongestMatch a b alo ahi blo bhi).size < bhi
        · rw [if_pos hR]
          exact ih _ ahi _ bhi (le_of_lt hR.1) (le_of_lt hR.2)
        · rw [if_neg hR]
          exact ⟨hm3, hm4⟩

/-- Collapsing adjacent blocks preserves the chain. -/
theorem collapseBlocks_chainLe :
    ∀ (blocks : List (Nat × Nat × Nat)) (i1 j1 k1 i j ahi bhi : Nat),
      i ≤ i1 → j ≤ j1 → ChainLe (i1 + k1) (j1 + k1) blocks ahi bhi →
      ChainLe i j (collapseBlocks i1 j1 k1 blocks) ahi bhi := by
  intro blocks
  induction blocks with
  | nil =>
    intro i1 j1 k1 i j ahi bhi h1 h2 hc
    obtain ⟨hc1, hc2⟩ := hc
    unfold collapseBlocks
    by_cases hk : k1 = 0
    · rw [if_pos hk]
      exact ⟨by omega, by omega⟩
    · rw [if_neg hk]
      exact ⟨h1, h2, hc1, hc2⟩
  | cons blk rest ih =>
    obtain ⟨i2, j2, k2⟩ := blk
    intro i1 j1 k1 i j ahi bhi h1 h2 hc
    obtain ⟨hc1, hc2, hc3⟩ := hc
    unfold collapseBlocks
    by_cases hadj : i1 + k1 = i2 ∧ j1 + k1 = j2
    · rw [if_pos hadj]
      apply ih i1 j1 (k1 + k2) i j ahi bhi h1 h2
      rw [show i1 + (k1 + k2) = i2 + k2 by omega, show j1 + (k1 + k2) = j2 + k2 by omega]
      exact hc3
    · rw [if_neg hadj]
      by_cases hk : k1 = 0
      · rw [if_pos hk]
        simp only [List.nil_append]
        exact ih i2 j2 k2 i j ahi bhi (by omega) (by omega) hc3
      · rw [if_neg hk]
        simp only [List.singleton_append]
        exact ⟨h1, h2, ih i2 j2 k2 (i1 + k1) (j1 + k1) ahi bhi hc1 hc2 hc3⟩

/-- Appending the sentinel turns a loose chain into an exact one. -/
theorem chainLe_sentinel :
    ∀ (blocks : List (Nat × Nat × Nat)) (i j la lb : Nat),
      ChainLe i j blocks la lb → ChainExact i j (blocks ++ [(la, lb, 0)]) la lb := by
  intro blocks
  induction blocks with
  | nil =>
    intro i j la lb h
    exact ⟨h.1, h.2, by omega, by omega⟩
  | cons blk rest ih =>
    obtain ⟨ai, bj, k⟩ := blk
    intro i j la lb h
    obtain ⟨h1, h2, h3⟩ := h
    exact ⟨h1, h2, ih (ai + k) (bj + k) la lb h3⟩

/-- The matching blocks of two line sequences chain from the origin exactly to
the two lengths. -/
theorem getMatchingBlocks_chain (a b : List Line) :
    ChainExact 0 0 (getMatchingBlocks a b) a.length b.length := by
  unfold getMatchingBlocks
  apply chainLe_sentinel
  apply collapseBlocks_chainLe _ 0 0 0 0 0 _ _ (le_refl _) (le_refl _)
  simp only [Nat.add_zero]
  exact matchingBlocksFuel_chainLe a b _ 0 a.length 0 b.length (Nat.zero_le _) (Nat.zero_le _)

/-- An exact chain's cursor stays within the bounds. -/
theorem chainExact_le :
    ∀ (blocks : List (Nat × Nat × Nat)) (i j la lb : Nat),
      ChainExact i j blocks la lb → i ≤ la ∧ j ≤ lb := by
  intro blocks
  induction blocks with
  | nil =>
    intro i j la lb h
    exact ⟨le_of_eq h.1, le_of_eq h.2⟩
  | cons blk rest ih =>
    obtain ⟨ai, bj, k⟩ := blk
    intro i j la lb h
    obtain ⟨h1, h2, h3⟩ := h
    have := ih (ai + k) (bj + k) la lb h3
    exact ⟨by omega, by omega⟩

/-- An empty slice. -/
theorem pySlice_self {α : Type} (l : List α) (i : Nat) : pySlice l i i = [] := by
  unfold pySlice
  apply List.drop_eq_nil_of_le
  rw [List.length_take]
  omega

/-- Composition of adjacent slices. -/
theorem pySlice_append {α : Type} (l : List α) (i m j : Nat)
    (h1 : i ≤ m) (h2 : m ≤ j) (h3 : j ≤ l.length) :
    pySlice l i m ++ pySlice l m j = pySlice l i j := by
  unfold pySlice
  have e1 : l.take j = l.take m ++ (l.take j).drop m := by
    have h4 : (l.take j).take m = l.take m := by
      rw [List.take_take, min_eq_left h2]
    rw [← h4]
    exact (List.take_append_drop m (l.take j)).symm
  conv_rhs => rw [e1]
  rw [List.drop_append_eq_append_drop]
  have h5 : i - (l.take m).length = 0 := by
    rw [List.length_take]
    omega
  rw [h5, List.drop_zero]

/-- Source-side tiling of the opcode loop: over an exact chain the source
slices of the opcodes concatenate to the remaining source suffix. -/
theorem opcodesLoop_src (a : List Line) (lb : Nat) :
    ∀ (blocks : List (Nat × Nat × Nat)) (i j : Nat), ChainExact i j blocks a.length lb →
      ((opcodesLoop i j blocks).map (fun c => pySlice a c.i1 c.i2)).flatten =
        pySlice a i a.length := by
  intro blocks
  induction blocks with
  | nil =>
    intro i j h
    rw [h.1]
    simp [opcodesLoop, pySlice_self]
  | cons blk rest ih =>
    obtain ⟨ai, bj, k⟩ := blk
    intro i j h
    obtain ⟨h1, h2, h3⟩ := h
    have hak := chainExact_le rest (ai + k) (bj + k) a.length lb h3
    unfold opcodesLoop
    rw [List.map_append, List.flatten_append, List.map_append, List.flatten_append]
    rw [ih (ai + k) (bj + k) h3]
    have hgap : (((if i < ai ∧ j < bj then [⟨OpTag.replace, i, ai, j, bj⟩]
        else if i < ai then [⟨OpTag.delete, i, ai, j, bj⟩]
        else if j < bj then [⟨OpTag.insert, i, ai, j, bj⟩]
        else []) : List Opcode).map (fun c => pySlice a c.i1 c.i2)).flatten =
        pySlice a i ai := by
      by_cases c1 : i < ai ∧ j < bj
      · rw [if_pos c1]
        simp
      · rw [if_neg c1]
        by_cases c2 : i < ai
        · rw [if_pos c2]
          simp
        · rw [if_neg c2]
          have hiai : i = ai := by omega
          by_cases c3 : j < bj
          · rw [if_pos c3]
            simp
          · rw [if_neg c3]
            rw [hiai, pySlice_self]
            simp
    have heq : (((if k = 0 then [] else [⟨OpTag.equal, ai, ai + k, bj, bj + k⟩]) :
        List Opcode).map (fun c => pySlice a c.i1 c.i2)).flatten =
        pySlice a ai (ai + k) := by
      by_cases ck : k = 0
      · rw [if_pos ck, ck]
        rw [show ai + 0 = ai by omega, pySlice_self]
        simp
      · rw [if_neg ck]
        simp
    rw [hgap, heq]
    rw [pySlice_append a i ai (ai + k) h1 (by omega) hak.1,
      pySlice_append a i (ai + k) a.length (by omega) hak.1 (le_refl _)]

/-- Target-side tiling of the opcode loop. -/
theorem opcodesLoop_tgt (b : List Line) (la : Nat) :
    ∀ (blocks : List (Nat × Nat × Nat)) (i j : Nat), ChainExact i j blocks la b.length →
      ((opcodesLoop i j blocks).map (fun c => pySlice b c.j1 c.j2)).flatten =
        pySlice b j b.length := by
  intro blocks
  induction blocks with
  | nil =>
    intro i j h
    rw [h.2]
    simp [opcodesLoop, pySlice_self]
  | cons blk rest ih =>
    obtain ⟨ai, bj, k⟩ := blk
    intro i j h
    obtain ⟨h1, h2, h3⟩ := h
    have hak := chainExact_le rest (ai + k) (bj + k) la b.length h3
    unfold opcodesLoop
    rw [List.map_append, List.flatten_append, List.map_append, List.flatten_append]
    rw [ih (ai + k) (bj + k) h3]
    have hgap : (((if i < ai ∧ j < bj then [⟨OpTag.replace, i, ai, j, bj⟩]
        else if i < ai then [⟨OpTag.delete, i, ai, j, bj⟩]
        else if j < bj then [⟨OpTag.insert, i, ai, j, bj⟩]
        else []) : List Opcode).map (fun c => pySlice b c.j1 c.j2)).flatten =
        pySlice b j bj := by
      by_cases c1 : i < ai ∧ j < bj
      · rw [if_pos c1]
        simp
      · rw [if_neg c1]
        by_cases c2 : i < ai
        · rw [if_pos c2]
          simp
        · rw [if_neg c2]
          by_cases c3 : j < bj
          · rw [if_pos c3]
            simp
          · rw [if_neg c3]
            have hjbj : j = bj := by omega
            rw [hjbj, pySlice_self]
            simp
    have heq : (((if k = 0 then [] else [⟨OpTag.equal, ai, ai + k, bj, bj + k⟩]) :
        List Opcode).map (fun c => pySlice b c.j1 c.j2)).flatten =
        pySlice b bj (bj + k) := by
      by_cases ck : k = 0
      · rw [if_pos ck, ck]
        rw [show bj + 0 = bj by omega, pySlice_self]
        simp
      · rw [if_neg ck]
        simp
    rw [hgap, heq]
    rw [pySlice_append b j bj (bj + k) h2 (by omega) hak.2,
      pySlice_append b j (bj + k) b.length (by omega) hak.2 (le_refl _)]

/-- Claim C4 as amended: the reconstruction property holds one layer below the
rendering, at the matching-block opcode level, where the hunks tile both
inputs with no gaps: concatenating the source-side slices of all opcodes of
diff(A,B) reproduces A exactly, and likewise the target-side slices reproduce
B.  The rendered unified diff that compare_texts returns covers only up to
three context lines around each change (and is empty for identical inputs),
so the claim fails for it, per the counterexample. -/
theorem c4_amended (a b : List Line) :
    ((getOpcodes a b).map (fun c => pySlice a c.i1 c.i2)).flatten = a ∧
    ((getOpcodes a b).map (fun c => pySlice b c.j1 c.j2)).flatten = b := by
  have h := getMatchingBlocks_chain a b
  unfold getOpcodes
  constructor
  · rw [opcodesLoop_src a b.length _ 0 0 h]
    unfold pySlice
    simp
  · rw [opcodesLoop_tgt b a.length _ 0 0 h]
    unfold pySlice
    simp

/-- Claim C4 fails on the code as stated: compare_texts returns the rendered
unified diff, and for two identical one-line documents that rendering is
empty; the concatenation of the source-side lines of its hunks is therefore
empty and does not reproduce the one-line input. -/
theorem c4_counterexample :
    compareTexts "x".data "x".data "a.png".data "b.png".data = [] ∧
    pySplitlines "x".data = ["x".data] ∧
    (([] : List Line) ≠ pySplitlines "x".data) := by
  refine ⟨by decide, by decide, by decide⟩

/-! ## Claim C5: the diff of a document with itself -/

end PdfPii
